import Mathlib

/-!
Convolution testbed: direct kernel, im2col + GEMM pipeline, tolerant comparator.

Shallow embedding of `direct_convolution.cpp`, `main.cpp` and `compare_outputs.cpp`.

Conventions of the embedding

* `double`: `direct_convolve` and `im2col` are written over an arbitrary value type with `0`,
  `+` and `*`, of which no algebraic law is assumed, so that what is proved of them holds for
  rounded arithmetic as well as for exact arithmetic.  The GEMM pipeline and the comparator
  are over exact rationals (`ℚ`).
* `int`: in `im2col` every `int` operation is followed by the 32-bit wrap-around `wrap32`,
  because its sizes and indices leave the `int` range on shapes `main` can draw.  Elsewhere
  the `int` values stay below the buffer sizes, which are below `2^31` on every shape `main`
  can draw (`drawable_sizes_fit`), and are kept as unbounded integers (`Int`).  Loop counters
  run over `0, 1, ..., n-1`.
* A `std::vector<double>` is a list.  Element access outside the vector, which is undefined
  behaviour in the source, and a `resize` / construction with a negative size, which throws,
  make the embedded function return `none`.
-/

namespace Conv

/-! ## Vectors and loops -/

/-- Read `v[i]`; `none` when `i` is outside the vector. -/
def readAt {α : Type} (v : List α) (i : Int) : Option α :=
  if 0 ≤ i then v[i.toNat]? else none

/-- Assignment `v[i] = x`; `none` when `i` is outside the vector. -/
def writeAt {α : Type} (v : List α) (i : Int) (x : α) : Option (List α) :=
  if 0 ≤ i ∧ i.toNat < v.length then some (v.set i.toNat x) else none

/-- Call `v.resize(n, fill)`: keeps the first `n` elements and pads with `fill` up to length `n`;
`none` when `n` is negative (the size converts to a huge unsigned value and the call throws). -/
def resize {α : Type} (v : List α) (n : Int) (fill : α) : Option (List α) :=
  if 0 ≤ n then some (v.take n.toNat ++ List.replicate (n.toNat - v.length) fill) else none

/-- Loop `for (int i = 0; i < n; ++i) body`, threading the state the body updates. -/
def forLoop {σ : Type} (n : Int) (body : Int → σ → Option σ) (s : σ) : Option σ :=
  (List.range n.toNat).foldlM (fun s i => body (i : Int) s) s

/-- A signed 32-bit `int` holding the unbounded result `x`: the two's complement value after
wrap-around (signed overflow is undefined behaviour in the source; this is what the usual
targets compute). -/
def wrap32 (x : Int) : Int := (x + 2 ^ 31) % 2 ^ 32 - 2 ^ 31

/-! ## `direct_convolution.cpp` -/

/-- Function `direct_convolve` of `direct_convolution.cpp`, instrumented.  `output` is the
vector passed by reference.  The result is the final content of `output` together with the log
of the reads of the accumulation: one pair `(input_idx, kernel_idx)` for every execution of
`sum += input[input_idx] * kernel[kernel_idx]`, in program order.  The loops over `b`, `k_idx`,
`h`, `w` carry the pair (output vector, log); the three accumulation loops carry the pair
(`sum`, log). -/
def direct_convolve_traced {α : Type} [Zero α] [Add α] [Mul α] (input kernel output : List α)
    (batchsize ic ih iw kc kh kw : Int) : Option (List α × List (Int × Int)) := do
  let oh := ih - kh + 1
  let ow := iw - kw + 1
  let output ← resize output (batchsize * kc * oh * ow) 0
  forLoop batchsize (fun b st =>
    forLoop kc (fun k_idx st =>
      forLoop oh (fun h st =>
        forLoop ow (fun w st => do
          let acc ← forLoop ic (fun c_idx acc =>
            forLoop kh (fun kh_idx acc =>
              forLoop kw (fun kw_idx acc => do
                let input_h_idx := h + kh_idx
                let input_w_idx := w + kw_idx
                let input_idx := ((b * ic + c_idx) * ih + input_h_idx) * iw + input_w_idx
                let col_K_idx := ((c_idx * kh) + kh_idx) * kw + kw_idx
                let kernel_M_idx := k_idx
                let kernel_idx := kernel_M_idx * (ic * kh * kw) + col_K_idx
                let x ← readAt input input_idx
                let y ← readAt kernel kernel_idx
                pure (acc.1 + x * y, acc.2 ++ [(input_idx, kernel_idx)])) acc) acc) (0, st.2)
          let output_idx := ((b * kc + k_idx) * oh + h) * ow + w
          let output ← writeAt st.1 output_idx acc.1
          pure (output, acc.2)) st) st) st) (output, [])

/-- Function `direct_convolve` of `direct_convolution.cpp`; `output` is the vector passed by
reference, the result is its final content. -/
def direct_convolve {α : Type} [Zero α] [Add α] [Mul α] (input kernel output : List α)
    (batchsize ic ih iw kc kh kw : Int) : Option (List α) :=
  (direct_convolve_traced input kernel output batchsize ic ih iw kc kh kw).map Prod.fst

/-! ## `main.cpp` -/

/-- Function `im2col` of `main.cpp`, instrumented, in 32-bit `int` arithmetic.  `col` is the
vector passed by reference.  The result is the final content of `col` together with the log of
the copies: one pair `(input_idx, destination index)` for every execution of
`col[col_row_idx * col_cols + col_col_idx] = input[input_idx]`, in program order.  The OpenMP
pragma is not modelled: the iterations run in program order. -/
def im2col_traced {α : Type} [Zero α] (input col : List α)
    (batchsize ic ih iw kh kw : Int) : Option (List α × List (Int × Int)) := do
  let oh := wrap32 (wrap32 (ih - kh) + 1)
  let ow := wrap32 (wrap32 (iw - kw) + 1)
  let col_rows := wrap32 (wrap32 (batchsize * oh) * ow)
  let col_cols := wrap32 (wrap32 (ic * kh) * kw)
  let col ← resize col (wrap32 (col_rows * col_cols)) 0
  forLoop batchsize (fun b st =>
    forLoop oh (fun h st =>
      forLoop ow (fun w st =>
        forLoop ic (fun c_idx st =>
          forLoop kh (fun kh_idx st =>
            forLoop kw (fun kw_idx st => do
              let input_h := wrap32 (h + kh_idx)
              let input_w := wrap32 (w + kw_idx)
              let col_row_idx := wrap32 (wrap32 (wrap32 (wrap32 (b * oh) + h) * ow) + w)
              let col_col_idx :=
                wrap32 (wrap32 (wrap32 (wrap32 (c_idx * kh) + kh_idx) * kw) + kw_idx)
              let input_idx :=
                wrap32 (wrap32 (wrap32 (wrap32 (wrap32 (wrap32 (b * ic) + c_idx) * ih)
                  + input_h) * iw) + input_w)
              let x ← readAt input input_idx
              let dst := wrap32 (wrap32 (col_row_idx * col_cols) + col_col_idx)
              let col ← writeAt st.1 dst x
              pure (col, st.2 ++ [(input_idx, dst)])) st) st) st) st) st) (col, [])

/-- Function `im2col` of `main.cpp`, in 32-bit `int` arithmetic; `col` is the vector passed by
reference, the result is its final content. -/
def im2col {α : Type} [Zero α] (input col : List α)
    (batchsize ic ih iw kh kw : Int) : Option (List α) :=
  (im2col_traced input col batchsize ic ih iw kh kw).map Prod.fst

/-- Modelled from the spec: the external matrix multiply `cblas_dgemm`, called by
`convolve_im2col_gemm` with `CblasRowMajor, CblasNoTrans, CblasTrans`.  Reference row-major
product with explicit leading dimensions: `C(M,N) = alpha * A(M,K) * B(N,K)^T + beta * C`. -/
def cblas_dgemm (M N K : Int) (alpha : ℚ) (A : List ℚ) (lda : Int) (B : List ℚ) (ldb : Int)
    (beta : ℚ) (C : List ℚ) (ldc : Int) : Option (List ℚ) :=
  forLoop M (fun m C =>
    forLoop N (fun n C => do
      let acc ← forLoop K (fun p acc => do
        let a ← readAt A (m * lda + p)
        let b ← readAt B (n * ldb + p)
        pure (acc + a * b)) 0
      let c ← readAt C (m * ldc + n)
      writeAt C (m * ldc + n) (alpha * acc + beta * c)) C) C

/-- The NHWC to NCHW loop nest of `convolve_im2col_gemm` (`main.cpp`, lines 85-99): resize of
`output` followed by the four loops copying `output_nhwc` into it.  The OpenMP pragma is not
modelled: the iterations run in program order. -/
def nhwc_to_nchw (output_nhwc output : List ℚ) (batchsize kc oh ow : Int) :
    Option (List ℚ) := do
  let output ← resize output (batchsize * kc * oh * ow) 0
  forLoop batchsize (fun b output =>
    forLoop kc (fun k_idx output =>
      forLoop oh (fun h output =>
        forLoop ow (fun w output => do
          let nhwc_idx := ((b * oh + h) * ow + w) * kc + k_idx
          let nchw_idx := ((b * kc + k_idx) * oh + h) * ow + w
          let x ← readAt output_nhwc nhwc_idx
          writeAt output nchw_idx x) output) output) output) output

/-- Function `convolve_im2col_gemm` of `main.cpp`; `output` is the vector passed by reference,
the result is its final content.  The call to `im2col` is the 32-bit one. -/
def convolve_im2col_gemm (input kernel output : List ℚ)
    (batchsize ic ih iw kc kh kw : Int) : Option (List ℚ) := do
  let oh := ih - kh + 1
  let ow := iw - kw + 1
  let col ← im2col input [] batchsize ic ih iw kh kw
  let M := batchsize * oh * ow
  let N := kc
  let K := ic * kh * kw
  let output_nhwc ← resize [] (M * N) 0
  let output_nhwc ← cblas_dgemm M N K 1 col K kernel K 0 output_nhwc N
  nhwc_to_nchw output_nhwc output batchsize kc oh ow

/-- Function `print_matrix` (the same text in `main.cpp` and in `direct_convolution.cpp`): the
characters it writes to standard output.  `fmt` stands for the library formatting of one value
under `std::fixed << std::setprecision(8)`; the parameters `rows` and `cols` are not used by the
source.  The loop counter and `matrix.size() - 1` are unsigned in the source; the subtraction is
only reached for a non-empty vector, where it does not wrap. -/
def print_matrix (fmt : ℚ → List Char) (matrix : List ℚ) (_rows _cols : Int) :
    Option (List Char) :=
  if matrix.isEmpty then some ['\n']
  else do
    let out ← forLoop (matrix.length : Int) (fun i out => do
      let x ← readAt matrix i
      let out := out ++ fmt x
      if i < (matrix.length : Int) - 1 then pure (out ++ [' ']) else pure out) []
    pure (out ++ ['\n'])

/-- The list `common_sizes` of `main` (`main.cpp` and `direct_convolution.cpp`). -/
def common_sizes : List Int := [1, 2, 4, 8, 16, 32, 64, 128, 256]

/-- The shape tuples `main` can draw: `batchsize` and `ic` from `common_sizes`, `ih` and `iw`
from `dist_hw(8, 64)`, `kc` from `dist_kc(1, 8)`, `kh` and `kw` from `dist_khw(2, 5)`. -/
def drawable (batchsize ic ih iw kc kh kw : Int) : Prop :=
  batchsize ∈ common_sizes ∧ ic ∈ common_sizes ∧ (8 ≤ ih ∧ ih ≤ 64) ∧ (8 ≤ iw ∧ iw ≤ 64) ∧
    (1 ≤ kc ∧ kc ≤ 8) ∧ (2 ≤ kh ∧ kh ≤ 5) ∧ (2 ≤ kw ∧ kw ≤ 5)

/-- Lines 155-160 of `main` in `main.cpp`: the kernel size is clamped to the input size, then
the output size is derived.  The result is `(kh, kw, oh, ow)`. -/
def main_im2col_shape (ih iw kh kw : Int) : Int × Int × Int × Int :=
  let kh := if kh > ih then ih else kh
  let kw := if kw > iw then iw else kw
  let oh := ih - kh + 1
  let ow := iw - kw + 1
  (kh, kw, oh, ow)

/-- Lines 116-121 of `main` in `direct_convolution.cpp`: the kernel size is clamped to the input
size, then the output size is derived.  The result is `(kh, kw, oh, ow)`. -/
def main_direct_shape (ih iw kh kw : Int) : Int × Int × Int × Int :=
  let kh := if kh > ih then ih else kh
  let kw := if kw > iw then iw else kw
  let oh := ih - kh + 1
  let ow := iw - kw + 1
  (kh, kw, oh, ow)

/-- The size `col_rows * col_cols` that `im2col` passes to `col.resize` (lines 24-28 of
`main.cpp`), over unbounded integers. -/
def im2col_size (batchsize ic ih iw kh kw : Int) : Int :=
  let oh := ih - kh + 1
  let ow := iw - kw + 1
  let col_rows := batchsize * oh * ow
  let col_cols := ic * kh * kw
  col_rows * col_cols

/-- The size `col_rows * col_cols` that `im2col` passes to `col.resize` (lines 24-28 of
`main.cpp`), every operation done in 32-bit `int`. -/
def im2col_size32 (batchsize ic ih iw kh kw : Int) : Int :=
  let oh := wrap32 (wrap32 (ih - kh) + 1)
  let ow := wrap32 (wrap32 (iw - kw) + 1)
  let col_rows := wrap32 (wrap32 (batchsize * oh) * ow)
  let col_cols := wrap32 (wrap32 (ic * kh) * kw)
  wrap32 (col_rows * col_cols)

/-- The index `col_row_idx * col_cols + col_col_idx` at which `im2col` writes in the iteration
`(b, h, w, c_idx, kh_idx, kw_idx)` (lines 41-50 of `main.cpp`), every operation done in 32-bit
`int`; `oh` and `ow` are the values of the local variables of that name. -/
def im2col_dst32 (ic kh kw oh ow b h w c_idx kh_idx kw_idx : Int) : Int :=
  let col_cols := wrap32 (wrap32 (ic * kh) * kw)
  let col_row_idx := wrap32 (wrap32 (wrap32 (wrap32 (b * oh) + h) * ow) + w)
  let col_col_idx := wrap32 (wrap32 (wrap32 (wrap32 (c_idx * kh) + kh_idx) * kw) + kw_idx)
  wrap32 (wrap32 (col_row_idx * col_cols) + col_col_idx)

/-! ## The `main.cpp` functions with `int` taken as unbounded integers -/

/-- Function `im2col` of `main.cpp` with its `int` sizes and indices taken as unbounded
integers; `col` is the vector passed by reference, the result is its final content.  The OpenMP
pragma is not modelled: the iterations run in program order. -/
def im2col_unbounded (input col : List ℚ) (batchsize ic ih iw kh kw : Int) :
    Option (List ℚ) := do
  let oh := ih - kh + 1
  let ow := iw - kw + 1
  let col_rows := batchsize * oh * ow
  let col_cols := ic * kh * kw
  let col ← resize col (col_rows * col_cols) 0
  forLoop batchsize (fun b col =>
    forLoop oh (fun h col =>
      forLoop ow (fun w col =>
        forLoop ic (fun c_idx col =>
          forLoop kh (fun kh_idx col =>
            forLoop kw (fun kw_idx col => do
              let input_h := h + kh_idx
              let input_w := w + kw_idx
              let col_row_idx := (b * oh + h) * ow + w
              let col_col_idx := ((c_idx * kh) + kh_idx) * kw + kw_idx
              let input_idx := ((b * ic + c_idx) * ih + input_h) * iw + input_w
              let x ← readAt input input_idx
              writeAt col (col_row_idx * col_cols + col_col_idx) x) col) col) col) col) col) col

/-- Function `convolve_im2col_gemm` of `main.cpp` with all `int` sizes and indices, those of
`im2col` included, taken as unbounded integers. -/
def convolve_im2col_gemm_unbounded (input kernel output : List ℚ)
    (batchsize ic ih iw kc kh kw : Int) : Option (List ℚ) := do
  let oh := ih - kh + 1
  let ow := iw - kw + 1
  let col ← im2col_unbounded input [] batchsize ic ih iw kh kw
  let M := batchsize * oh * ow
  let N := kc
  let K := ic * kh * kw
  let output_nhwc ← resize [] (M * N) 0
  let output_nhwc ← cblas_dgemm M N K 1 col K kernel K 0 output_nhwc N
  nhwc_to_nchw output_nhwc output batchsize kc oh ow

/-! ## Specification-side definitions -/

/-- The value `direct_convolve` accumulates for output position `(b, k, h, w)`: starting from
`0`, the products are added one by one in the order of the loops over `c`, `kh`, `kw`, with the
`+` and `*` of the value type. -/
def convFold {α : Type} [Zero α] [Add α] [Mul α] (input kernel : List α)
    (C H W KH KW b k h w : ℕ) : α :=
  (List.range C).foldl (fun s c =>
    (List.range KH).foldl (fun s kh =>
      (List.range KW).foldl (fun s kw =>
        s + input.getD (((b * C + c) * H + (h + kh)) * W + (w + kw)) 0 *
          kernel.getD (((k * C + c) * KH + kh) * KW + kw) 0) s) s) 0

/-- The same value over exact arithmetic: the sum over `c`, `kh`, `kw` of the products. -/
def convSum (input kernel : List ℚ) (C H W KH KW b k h w : ℕ) : ℚ :=
  ∑ c in Finset.range C, ∑ kh in Finset.range KH, ∑ kw in Finset.range KW,
    input.getD (((b * C + c) * H + (h + kh)) * W + (w + kw)) 0 *
      kernel.getD (((k * C + c) * KH + kh) * KW + kw) 0

/-- A sequence of assignments `out[p.1] = p.2`, performed from left to right. -/
def applyWrites {α : Type} (out : List α) (ws : List (ℕ × α)) : List α :=
  ws.foldl (fun o p => o.set p.1 p.2) out

/-- The assignments `direct_convolve` performs, in program order. -/
def directWrites {α : Type} [Zero α] [Add α] [Mul α] (input kernel : List α)
    (N C H W K KH KW OH OW : ℕ) : List (ℕ × α) :=
  (List.range N).flatMap fun b => (List.range K).flatMap fun k =>
    (List.range OH).flatMap fun h => (List.range OW).flatMap fun w =>
      [(((b * K + k) * OH + h) * OW + w, convFold input kernel C H W KH KW b k h w)]

/-- The log `direct_convolve_traced` is expected to produce: the pairs
`(input index, kernel index)` in the order of the loops over `b`, `k`, `h`, `w`, `c`, `kh`,
`kw`. -/
def directLog (N C H W K KH KW OH OW : ℕ) : List (Int × Int) :=
  (List.range N).flatMap fun b => (List.range K).flatMap fun k =>
    (List.range OH).flatMap fun h => (List.range OW).flatMap fun w =>
      (List.range C).flatMap fun c => (List.range KH).flatMap fun kh =>
        (List.range KW).flatMap fun kw =>
          [(((((b * C + c) * H + (h + kh)) * W + (w + kw) : ℕ) : Int),
            ((((k * C + c) * KH + kh) * KW + kw : ℕ) : Int))]

/-- The shape is one on which no `int` operation of `im2col` overflows: the parameters, the
numbers of rows and of columns of the patch matrix, its size and the size of the input are all
below `2^31`. -/
@[reducible] def im2col_fits (N C H W KH KW : ℕ) : Prop :=
  N < 2 ^ 31 ∧ C < 2 ^ 31 ∧ H < 2 ^ 31 ∧ W < 2 ^ 31 ∧
    N * (H - KH + 1) * (W - KW + 1) < 2 ^ 31 ∧ C * KH * KW < 2 ^ 31 ∧
    N * (H - KH + 1) * (W - KW + 1) * (C * KH * KW) < 2 ^ 31 ∧ N * C * H * W < 2 ^ 31

/-- The assignments `im2col` performs when no `int` operation overflows, in program order. -/
def im2colWrites {α : Type} [Zero α] (input : List α) (N C H W KH KW OH OW : ℕ) :
    List (ℕ × α) :=
  (List.range N).flatMap fun b => (List.range OH).flatMap fun h =>
    (List.range OW).flatMap fun w => (List.range C).flatMap fun c =>
      (List.range KH).flatMap fun kh => (List.range KW).flatMap fun kw =>
        [(((b * OH + h) * OW + w) * (C * KH * KW) + ((c * KH + kh) * KW + kw),
          input.getD (((b * C + c) * H + (h + kh)) * W + (w + kw)) 0)]

/-- The log `im2col_traced` is expected to produce when no `int` operation overflows: the
pairs `(input index, destination index)` in the order of the loops over `b`, `h`, `w`, `c`,
`kh`, `kw`. -/
def im2colLog (N C H W KH KW OH OW : ℕ) : List (Int × Int) :=
  (List.range N).flatMap fun b => (List.range OH).flatMap fun h =>
    (List.range OW).flatMap fun w => (List.range C).flatMap fun c =>
      (List.range KH).flatMap fun kh => (List.range KW).flatMap fun kw =>
        [(((((b * C + c) * H + (h + kh)) * W + (w + kw) : ℕ) : Int),
          ((((b * OH + h) * OW + w) * (C * KH * KW) + ((c * KH + kh) * KW + kw) : ℕ) : Int))]

/-- The assignments of `cblas_dgemm` when `beta = 0` and the leading dimensions are the row
lengths. -/
def gemmWrites (alpha : ℚ) (A B : List ℚ) (M N K : ℕ) : List (ℕ × ℚ) :=
  (List.range M).flatMap fun m => (List.range N).flatMap fun n =>
    [(m * N + n, alpha * ∑ p in Finset.range K, A.getD (m * K + p) 0 * B.getD (n * K + p) 0)]

/-- The assignments of the NHWC to NCHW loop nest, in program order. -/
def layoutWrites (src : List ℚ) (N K OH OW : ℕ) : List (ℕ × ℚ) :=
  (List.range N).flatMap fun b => (List.range K).flatMap fun k =>
    (List.range OH).flatMap fun h => (List.range OW).flatMap fun w =>
      [(((b * K + k) * OH + h) * OW + w, src.getD (((b * OH + h) * OW + w) * K + k) 0)]

end Conv

namespace Cmp

/-- Library predicate `std::isspace` in the default "C" locale: space, `\t`, `\n`, `\v`, `\f`,
`\r`. -/
def isspace (c : Char) : Bool :=
  c == ' ' || (9 ≤ c.toNat && c.toNat ≤ 13)

/-- Function `is_number` of `compare_outputs.cpp`: the iterator advances over digits, `.`, `+`
and `-`; the string is numeric when it is not empty and the iterator reached its end. -/
def is_number (s : List Char) : Bool :=
  let it := s.dropWhile (fun c => c.isDigit || c == '.' || c == '+' || c == '-')
  !s.isEmpty && it.isEmpty

/-- Function `are_equal` of `compare_outputs.cpp`, over exact arithmetic; the source's default
argument `epsilon = 1e-4` is passed explicitly by the caller. -/
def are_equal (a b epsilon : ℚ) : Bool :=
  decide (|a - b| ≤ epsilon * max |a| |b|)

/-- Value of a run of decimal digits. -/
def digitsVal (ds : List Char) : ℕ :=
  ds.foldl (fun n c => 10 * n + (c.toNat - 48)) 0

/-- Modelled from the spec: the library conversion `std::stod` ("parse as double"), over exact
arithmetic, for the tokens that reach it (digits, `.`, `+`, `-` only, so no exponent, hexadecimal,
infinity or NaN forms).  It converts the longest prefix of the form
`[+-] digits [. digits]` holding at least one digit; `none` stands for the
`std::invalid_argument` exception thrown when there is no such prefix.  Over exact arithmetic
no value is out of range. -/
def stod (s : List Char) : Option ℚ :=
  let s := s.dropWhile isspace
  let neg := s.head? == some '-'
  let s := if s.head? == some '-' || s.head? == some '+' then s.tail else s
  let ip := s.takeWhile Char.isDigit
  let s := s.dropWhile Char.isDigit
  let fp := if s.head? == some '.' then s.tail.takeWhile Char.isDigit else []
  if ip.isEmpty && fp.isEmpty then none
  else
    let v : ℚ := (digitsVal ip : ℚ) + (digitsVal fp : ℚ) / (10 : ℚ) ^ fp.length
    some (if neg then -v else v)

/-- An input stream (`std::ifstream` on an opened file, or `std::stringstream` on a line): the
characters not read yet and the two state flags the program depends on. -/
structure IStream where
  buf : List Char
  eofbit : Bool
  failbit : Bool
deriving DecidableEq

/-- A freshly opened stream over `content`. -/
def mkStream (content : List Char) : IStream := ⟨content, false, false⟩

/-- Library call `getline(stream, line)`.  On a stream that is not good it fails.  Otherwise it
extracts characters up to a newline, which it consumes and discards, or up to the end of the
input, which sets `eofbit`; it fails when it reached the end without extracting a character. -/
def getline (s : IStream) : Option (List Char) × IStream :=
  if s.eofbit || s.failbit then (none, ⟨s.buf, s.eofbit, true⟩)
  else
    let line := s.buf.takeWhile (fun c => c != '\n')
    match s.buf.dropWhile (fun c => c != '\n') with
    | _ :: rest => (some line, ⟨rest, false, false⟩)
    | [] => if line.isEmpty then (none, ⟨[], true, true⟩) else (some line, ⟨[], true, false⟩)

/-- Library call `stream >> word` for a `std::string`.  On a stream that is not good it fails.
Otherwise it skips leading whitespace, failing (with `eofbit`) when nothing else is left, and
extracts characters up to the next whitespace, which it leaves in the stream, or up to the end of
the input, which sets `eofbit`. -/
def extractWord (s : IStream) : Option (List Char) × IStream :=
  if s.eofbit || s.failbit then (none, ⟨s.buf, s.eofbit, true⟩)
  else
    match s.buf.dropWhile isspace with
    | [] => (none, ⟨[], true, true⟩)
    | c :: cs =>
      let word := (c :: cs).takeWhile (fun c => !isspace c)
      let rest := (c :: cs).dropWhile (fun c => !isspace c)
      (some word, ⟨rest, rest.isEmpty, false⟩)

/-- Library call `stream.rdbuf()->in_avail()` on a string stream: the number of characters not
read yet. -/
def in_avail (s : IStream) : ℕ := s.buf.length

/-- How a run of the comparator ends. -/
inductive Verdict
  /-- Success message, `return 0`. -/
  | success
  /-- Token mismatch report with the line number and both tokens, `return 1`. -/
  | mismatch (line_num : ℕ) (word1 word2 : List Char)
  /-- Word count mismatch report for a line, `return 1`. -/
  | word_count_mismatch (line_num : ℕ)
  /-- Line count mismatch report, `return 1`. -/
  | line_count_mismatch
  /-- Uncaught `std::invalid_argument` thrown by `std::stod`: the process is terminated. -/
  | uncaught_exception
deriving DecidableEq

/-- Exit code of the process, when it exits normally. -/
def exit_code : Verdict → Option ℕ
  | .success => some 0
  | .mismatch _ _ _ => some 1
  | .word_count_mismatch _ => some 1
  | .line_count_mismatch => some 1
  | .uncaught_exception => none

/-- Body of the inner `while` loop of `main` (lines 48-64) for one pair of tokens: `none` when
the pair passes and the loop goes on, `some v` when the program stops with `v`. -/
def compare_word_pair (line_num : ℕ) (word1 word2 : List Char) : Option Verdict :=
  if is_number word1 && is_number word2 then
    match stod word1 with
    | none => some .uncaught_exception
    | some val1 =>
      match stod word2 with
      | none => some .uncaught_exception
      | some val2 =>
        if !are_equal val1 val2 (1 / 10000) then some (.mismatch line_num word1 word2) else none
  else if word1 != word2 then some (.mismatch line_num word1 word2)
  else none

/-- Inner loop `while (ss1 >> word1 && ss2 >> word2)` of `main` (lines 47-65).  The result is
`Sum.inl v` when the program stops inside the loop with `v`, and `Sum.inr (ss1, ss2)`, the two
string streams as the loop leaves them, otherwise.  `fuel` bounds the number of iterations;
`none` means the bound was too small. -/
def compare_words : ℕ → ℕ → IStream → IStream → Option (Verdict ⊕ (IStream × IStream))
  | 0, _, _, _ => none
  | fuel + 1, line_num, ss1, ss2 =>
    match extractWord ss1 with
    | (none, ss1) => some (.inr (ss1, ss2))
    | (some word1, ss1) =>
      match extractWord ss2 with
      | (none, ss2) => some (.inr (ss1, ss2))
      | (some word2, ss2) =>
        match compare_word_pair line_num word1 word2 with
        | some v => some (.inl v)
        | none => compare_words fuel line_num ss1 ss2

/-- Outer loop `while (getline(file1, line1) && getline(file2, line2))` of `main` followed by
the final end-of-file comparison (lines 39-81).  `fuel` bounds the number of iterations; `none`
means the bound was too small. -/
def compare_lines : ℕ → ℕ → IStream → IStream → Option Verdict
  | 0, _, _, _ => none
  | fuel + 1, line_num, file1, file2 =>
    match getline file1 with
    | (none, file1) =>
      if file1.eofbit != file2.eofbit then some .line_count_mismatch else some .success
    | (some line1, file1) =>
      match getline file2 with
      | (none, file2) =>
        if file1.eofbit != file2.eofbit then some .line_count_mismatch else some .success
      | (some line2, file2) =>
        let line_num := line_num + 1
        match compare_words (line1.length + 1) line_num (mkStream line1) (mkStream line2) with
        | none => none
        | some (.inl v) => some v
        | some (.inr (ss1, ss2)) =>
          if in_avail ss1 != 0 || in_avail ss2 != 0 then some (.word_count_mismatch line_num)
          else compare_lines fuel line_num file1 file2

/-- Function `main` of `compare_outputs.cpp` from line 37 on, that is once both files are open:
`file1` and `file2` are the contents of the two files.  Every iteration of a loop consumes at
least one character of the first stream, so the iteration bounds passed here are never
reached. -/
def compare_outputs (file1 file2 : List Char) : Option Verdict :=
  compare_lines (file1.length + 1) 0 (mkStream file1) (mkStream file2)

end Cmp

namespace Conv

/-! ## Index arithmetic -/
theorem flat_lt {a A b B : ℕ} (ha : a < A) (hb : b < B) : a * B + b < A * B := by
  calc a * B + b < a * B + B := by omega
    _ = (a + 1) * B := by ring
    _ ≤ A * B := Nat.mul_le_mul_right B ha

theorem flat_inj {a a' b b' B : ℕ} (hb : b < B) (hb' : b' < B)
    (h : a * B + b = a' * B + b') : a = a' ∧ b = b' := by
  have hB : 0 < B := by omega
  have h1 : (a * B + b) / B = a := by
    rw [Nat.add_comm, Nat.add_mul_div_right _ _ hB, Nat.div_eq_of_lt hb, Nat.zero_add]
  have h2 : (a' * B + b') / B = a' := by
    rw [Nat.add_comm, Nat.add_mul_div_right _ _ hB, Nat.div_eq_of_lt hb', Nat.zero_add]
  have ha : a = a' := by rw [← h1, ← h2, h]
  subst ha
  exact ⟨rfl, by omega⟩

/-! ## Vector primitives at natural-number arguments -/

theorem readAt_natCast {α : Type} (v : List α) (n : ℕ) : readAt v (n : ℤ) = v[n]? := by
  simp [readAt]

theorem readAt_of_lt {α : Type} [Zero α] (v : List α) (n : ℕ) (h : n < v.length) :
    readAt v (n : ℤ) = some (v.getD n 0) := by
  rw [readAt_natCast, List.getD_eq_getElem?_getD, List.getElem?_eq_getElem h]
  rfl

theorem writeAt_of_lt {α : Type} (v : List α) (n : ℕ) (x : α) (h : n < v.length) :
    writeAt v (n : ℤ) x = some (applyWrites v [(n, x)]) := by
  simp [writeAt, applyWrites, h]

theorem resize_natCast {α : Type} (v : List α) (n : ℕ) (fill : α) :
    resize v (n : ℤ) fill = some (v.take n ++ List.replicate (n - v.length) fill) := by
  simp [resize]

theorem length_take_append_replicate {α : Type} (v : List α) (n : ℕ) (fill : α) :
    (v.take n ++ List.replicate (n - v.length) fill).length = n := by
  simp only [List.length_append, List.length_take, List.length_replicate]
  omega

/-! ## 32-bit wrap-around on values that fit -/

theorem wrap32_cast {n : ℕ} (h : n < 2 ^ 31) : wrap32 (n : ℤ) = n := by
  unfold wrap32
  omega

theorem wrap32_add (x y : ℕ) (h : x + y < 2 ^ 31) :
    wrap32 ((x : ℤ) + y) = ((x + y : ℕ) : ℤ) := by
  rw [← Nat.cast_add]
  exact wrap32_cast h

theorem wrap32_mul (x y : ℕ) (h : x * y < 2 ^ 31) :
    wrap32 ((x : ℤ) * y) = ((x * y : ℕ) : ℤ) := by
  rw [← Nat.cast_mul]
  exact wrap32_cast h

theorem wrap32_mul_add (x B y : ℕ) (h : x * B + y < 2 ^ 31) :
    wrap32 (wrap32 ((x : ℤ) * B) + y) = ((x * B + y : ℕ) : ℤ) := by
  rw [wrap32_mul x B (by omega), wrap32_add (x * B) y h]

theorem le_mul_of_one_le (a : ℕ) {b : ℕ} (hb : 1 ≤ b) : a ≤ a * b :=
  Nat.le_mul_of_pos_right a hb

/-- A position inside a sliding window stays inside the image. -/
theorem window_lt {h kh OH KH H : ℕ} (hh : h < OH) (hkh : kh < KH) (hOH : OH + KH = H + 1) :
    h + kh < H := by omega

/-! ## Sequences of assignments -/

theorem applyWrites_append {α : Type} (out : List α) (ws ws' : List (ℕ × α)) :
    applyWrites out (ws ++ ws') = applyWrites (applyWrites out ws) ws' := by
  simp [applyWrites, List.foldl_append]

theorem length_applyWrites {α : Type} (ws : List (ℕ × α)) (out : List α) :
    (applyWrites out ws).length = out.length := by
  induction ws generalizing out with
  | nil => rfl
  | cons p ws ih =>
    show (applyWrites (out.set p.1 p.2) ws).length = out.length
    rw [ih, List.length_set]

theorem applyWrites_untouched {α : Type} (ws : List (ℕ × α)) (out : List α) (j : ℕ)
    (h : ∀ p ∈ ws, p.1 ≠ j) : (applyWrites out ws)[j]? = out[j]? := by
  induction ws generalizing out with
  | nil => rfl
  | cons p ws ih =>
    show (applyWrites (out.set p.1 p.2) ws)[j]? = out[j]?
    rw [ih _ (fun q hq => h q (List.mem_cons_of_mem _ hq))]
    exact List.getElem?_set_ne (h p (List.mem_cons_self _ _))

/-- A cell that is assigned at least once, and always the value `x`, holds `x` at the end. -/
theorem applyWrites_written {α : Type} (ws : List (ℕ × α)) (out : List α) (j : ℕ) (x : α)
    (hj : j < out.length) (hex : ∃ p ∈ ws, p.1 = j) (hval : ∀ p ∈ ws, p.1 = j → p.2 = x) :
    (applyWrites out ws)[j]? = some x := by
  induction ws generalizing out with
  | nil => obtain ⟨p, hp, _⟩ := hex; cases hp
  | cons p ws ih =>
    show (applyWrites (out.set p.1 p.2) ws)[j]? = some x
    by_cases hlater : ∃ q ∈ ws, q.1 = j
    · exact ih _ (by rw [List.length_set]; exact hj) hlater
        (fun q hq => hval q (List.mem_cons_of_mem _ hq))
    · have hno : ∀ q ∈ ws, q.1 ≠ j := fun q hq hqj => hlater ⟨q, hq, hqj⟩
      have hp : p.1 = j := by
        obtain ⟨q, hq, hqj⟩ := hex
        rcases List.mem_cons.mp hq with rfl | hq'
        · exact hqj
        · exact absurd hqj (hno q hq')
      rw [applyWrites_untouched _ _ _ hno, hp, List.getElem?_set_self hj,
        ← hval p (List.mem_cons_self _ _) hp]

/-! ## Loops -/

theorem forLoop_succ {σ : Type} (n : ℕ) (body : Int → σ → Option σ) (s : σ) :
    forLoop ((n + 1 : ℕ) : ℤ) body s = (forLoop (n : ℤ) body s).bind (body (n : ℤ)) := by
  simp [forLoop, List.range_succ, List.foldlM_append]

theorem forLoop_zero {σ : Type} (body : Int → σ → Option σ) (s : σ) :
    forLoop 0 body s = some s := by
  simp [forLoop]

/-- An accumulation loop over exact arithmetic: every iteration adds its term to the running
sum. -/
theorem forLoop_sum (n : ℕ) (body : Int → ℚ → Option ℚ) (t : ℕ → ℚ)
    (h : ∀ i < n, ∀ s, body (i : ℤ) s = some (s + t i)) (s : ℚ) :
    forLoop (n : ℤ) body s = some (s + ∑ i in Finset.range n, t i) := by
  induction n with
  | zero => simp [forLoop_zero]
  | succ n ih =>
    rw [forLoop_succ, ih (fun i hi => h i (Nat.lt_succ_of_lt hi)), Option.some_bind,
      h n (Nat.lt_succ_self n), Finset.sum_range_succ, add_assoc]

/-- A loop over a vector of fixed length `L` whose iteration `i` performs the assignments
`ws i`. -/
theorem forLoop_writes {α : Type} (L n : ℕ) (body : Int → List α → Option (List α))
    (ws : ℕ → List (ℕ × α))
    (h : ∀ i < n, ∀ out : List α, out.length = L →
      body (i : ℤ) out = some (applyWrites out (ws i)))
    (out : List α) (hout : out.length = L) :
    forLoop (n : ℤ) body out = some (applyWrites out ((List.range n).flatMap ws)) := by
  induction n with
  | zero => simp [forLoop_zero, applyWrites]
  | succ n ih =>
    rw [forLoop_succ, ih (fun i hi => h i (Nat.lt_succ_of_lt hi)), Option.some_bind,
      h n (Nat.lt_succ_self n) _ (by rw [length_applyWrites]; exact hout),
      List.range_succ, List.flatMap_append, applyWrites_append]
    simp

/-- An instrumented loop over a vector of fixed length `L` whose iteration `i` performs the
assignments `ws i` and appends `tr i` to the log. -/
theorem forLoop_writes_log {α : Type} (L n : ℕ)
    (body : Int → List α × List (Int × Int) → Option (List α × List (Int × Int)))
    (ws : ℕ → List (ℕ × α)) (tr : ℕ → List (Int × Int))
    (h : ∀ i < n, ∀ st : List α × List (Int × Int), st.1.length = L →
      body (i : ℤ) st = some (applyWrites st.1 (ws i), st.2 ++ tr i))
    (st : List α × List (Int × Int)) (hst : st.1.length = L) :
    forLoop (n : ℤ) body st =
      some (applyWrites st.1 ((List.range n).flatMap ws), st.2 ++ (List.range n).flatMap tr) := by
  induction n with
  | zero => simp [forLoop_zero, applyWrites]
  | succ n ih =>
    rw [forLoop_succ, ih (fun i hi => h i (Nat.lt_succ_of_lt hi)), Option.some_bind,
      h n (Nat.lt_succ_self n) _ (by rw [length_applyWrites]; exact hst),
      List.range_succ, List.flatMap_append, List.flatMap_append, applyWrites_append]
    simp

/-- An instrumented accumulation loop: iteration `i` turns the accumulator `s` into `f i s`
and appends `tr i` to the log. -/
theorem forLoop_acc {β : Type} (n : ℕ)
    (body : Int → β × List (Int × Int) → Option (β × List (Int × Int)))
    (f : ℕ → β → β) (tr : ℕ → List (Int × Int))
    (h : ∀ i < n, ∀ acc : β × List (Int × Int),
      body (i : ℤ) acc = some (f i acc.1, acc.2 ++ tr i))
    (acc : β × List (Int × Int)) :
    forLoop (n : ℤ) body acc =
      some ((List.range n).foldl (fun s i => f i s) acc.1,
        acc.2 ++ (List.range n).flatMap tr) := by
  induction n with
  | zero => simp [forLoop_zero]
  | succ n ih =>
    rw [forLoop_succ, ih (fun i hi => h i (Nat.lt_succ_of_lt hi)), Option.some_bind,
      h n (Nat.lt_succ_self n), List.range_succ, List.flatMap_append, List.foldl_append]
    simp

/-- A loop one of whose iterations fails on every state fails. -/
theorem forLoop_none {σ : Type} (n i : ℕ) (hi : i < n) (body : Int → σ → Option σ)
    (h : ∀ s, body (i : ℤ) s = none) (s : σ) : forLoop (n : ℤ) body s = none := by
  have key : ∀ (l : List ℤ), (i : ℤ) ∈ l → ∀ s : σ,
      l.foldlM (fun s j => body j s) s = none := by
    intro l
    induction l with
    | nil => intro hmem; cases hmem
    | cons a l ih =>
      intro hmem s
      rw [List.foldlM_cons]
      rcases List.mem_cons.1 hmem with heq | hmem'
      · rw [← heq, h s]; rfl
      · cases body a s with
        | none => rfl
        | some s' => exact ih hmem' s'
  unfold forLoop
  refine key _ ?_ s
  simp only [Int.toNat_natCast, List.bind_eq_flatMap, List.mem_flatMap, List.mem_range,
    List.pure_def, List.mem_singleton]
  exact ⟨i, hi, rfl⟩

/-! ## The direct kernel -/

/-- The three accumulation loops of `direct_convolve_traced` at a fixed output position. -/
theorem direct_inner {α : Type} [Zero α] [Add α] [Mul α] (input kernel : List α)
    (N C H W K KH KW OH OW b k h w : ℕ)
    (hOH : OH + KH = H + 1) (hOW : OW + KW = W + 1)
    (hin : input.length = N * C * H * W) (hker : kernel.length = K * C * KH * KW)
    (hb : b < N) (hk : k < K) (hh : h < OH) (hw : w < OW) (acc : α × List (Int × Int)) :
    forLoop (C : ℤ) (fun c_idx acc =>
      forLoop (KH : ℤ) (fun kh_idx acc =>
        forLoop (KW : ℤ) (fun kw_idx acc => do
          let input_h_idx := (h : ℤ) + kh_idx
          let input_w_idx := (w : ℤ) + kw_idx
          let input_idx := (((b : ℤ) * C + c_idx) * H + input_h_idx) * W + input_w_idx
          let col_K_idx := ((c_idx * KH) + kh_idx) * KW + kw_idx
          let kernel_M_idx := (k : ℤ)
          let kernel_idx := kernel_M_idx * ((C : ℤ) * KH * KW) + col_K_idx
          let x ← readAt input input_idx
          let y ← readAt kernel kernel_idx
          pure (acc.1 + x * y, acc.2 ++ [(input_idx, kernel_idx)])) acc) acc) acc
      = some ((List.range C).foldl (fun s c =>
          (List.range KH).foldl (fun s kh =>
            (List.range KW).foldl (fun s kw =>
              s + input.getD (((b * C + c) * H + (h + kh)) * W + (w + kw)) 0 *
                kernel.getD (((k * C + c) * KH + kh) * KW + kw) 0) s) s) acc.1,
        acc.2 ++ (List.range C).flatMap fun c => (List.range KH).flatMap fun kh =>
          (List.range KW).flatMap fun kw =>
            [(((((b * C + c) * H + (h + kh)) * W + (w + kw) : ℕ) : Int),
              ((((k * C + c) * KH + kh) * KW + kw : ℕ) : Int))]) := by
  refine forLoop_acc C _ _ _ (fun c hc acc => ?_) acc
  refine forLoop_acc KH _ _ _ (fun kh hkh acc => ?_) acc
  refine forLoop_acc KW _ _ _ (fun kw hkw acc => ?_) acc
  have e1 : (((b : ℤ) * C + c) * H + ((h : ℤ) + kh)) * W + ((w : ℤ) + kw)
      = ((((b * C + c) * H + (h + kh)) * W + (w + kw) : ℕ) : ℤ) := by push_cast; ring
  have e2 : (k : ℤ) * ((C : ℤ) * KH * KW) + (((c : ℤ) * KH + kh) * KW + kw)
      = ((((k * C + c) * KH + kh) * KW + kw : ℕ) : ℤ) := by push_cast; ring
  have l1 : ((b * C + c) * H + (h + kh)) * W + (w + kw) < input.length := by
    rw [hin]
    exact flat_lt (flat_lt (flat_lt hb hc) (by omega)) (by omega)
  have l2 : ((k * C + c) * KH + kh) * KW + kw < kernel.length := by
    rw [hker]
    exact flat_lt (flat_lt (flat_lt hk hc) hkh) hkw
  simp only [e1, e2, readAt_of_lt _ _ l1, readAt_of_lt _ _ l2]
  rfl

/-- Under the shape preconditions `direct_convolve_traced` succeeds; its result is the resized
output vector after the assignments `directWrites`, and its log is `directLog`. -/
theorem direct_convolve_traced_eq {α : Type} [Zero α] [Add α] [Mul α]
    (input kernel output : List α) (N C H W K KH KW : ℕ)
    (hKH : KH ≤ H) (hKW : KW ≤ W)
    (hin : input.length = N * C * H * W) (hker : kernel.length = K * C * KH * KW) :
    direct_convolve_traced input kernel output N C H W K KH KW =
      some (applyWrites
        (output.take (N * K * (H - KH + 1) * (W - KW + 1)) ++
          List.replicate (N * K * (H - KH + 1) * (W - KW + 1) - output.length) 0)
        (directWrites input kernel N C H W K KH KW (H - KH + 1) (W - KW + 1)),
        directLog N C H W K KH KW (H - KH + 1) (W - KW + 1)) := by
  have eOH : (H : ℤ) - KH + 1 = ((H - KH + 1 : ℕ) : ℤ) := by omega
  have eOW : (W : ℤ) - KW + 1 = ((W - KW + 1 : ℕ) : ℤ) := by omega
  have hOH : (H - KH + 1) + KH = H + 1 := by omega
  have hOW : (W - KW + 1) + KW = W + 1 := by omega
  generalize H - KH + 1 = OH at eOH hOH
  generalize W - KW + 1 = OW at eOW hOW
  have eL : (N : ℤ) * K * OH * OW = ((N * K * OH * OW : ℕ) : ℤ) := by push_cast; ring
  unfold direct_convolve_traced directWrites directLog convFold
  simp only [eOH, eOW, eL, resize_natCast, Option.bind_eq_bind, Option.some_bind]
  refine forLoop_writes_log (N * K * OH * OW) N _ _ _ (fun b hb st hst => ?_) (_, [])
    (length_take_append_replicate _ _ _)
  refine forLoop_writes_log (N * K * OH * OW) K _ _ _ (fun k hk st hst => ?_) _ hst
  refine forLoop_writes_log (N * K * OH * OW) OH _ _ _ (fun h hh st hst => ?_) _ hst
  refine forLoop_writes_log (N * K * OH * OW) OW _ _ _ (fun w hw st hst => ?_) _ hst
  have e : (((b : ℤ) * K + k) * OH + h) * OW + w
      = ((((b * K + k) * OH + h) * OW + w : ℕ) : ℤ) := by push_cast; ring
  have l : ((b * K + k) * OH + h) * OW + w < st.1.length := by
    rw [hst]
    exact flat_lt (flat_lt (flat_lt hb hk) hh) hw
  have hs := direct_inner input kernel N C H W K KH KW OH OW b k h w hOH hOW hin hker
    hb hk hh hw (0, st.2)
  simp only [Option.bind_eq_bind, Option.pure_def] at hs
  simp only [Option.pure_def, hs, Option.some_bind, e, writeAt_of_lt _ _ _ l]

theorem direct_convolve_eq {α : Type} [Zero α] [Add α] [Mul α]
    (input kernel output : List α) (N C H W K KH KW : ℕ)
    (hKH : KH ≤ H) (hKW : KW ≤ W)
    (hin : input.length = N * C * H * W) (hker : kernel.length = K * C * KH * KW) :
    direct_convolve input kernel output N C H W K KH KW =
      some (applyWrites
        (output.take (N * K * (H - KH + 1) * (W - KW + 1)) ++
          List.replicate (N * K * (H - KH + 1) * (W - KW + 1) - output.length) 0)
        (directWrites input kernel N C H W K KH KW (H - KH + 1) (W - KW + 1))) := by
  unfold direct_convolve
  rw [direct_convolve_traced_eq input kernel output N C H W K KH KW hKH hKW hin hker]
  rfl

theorem mem_directWrites {α : Type} [Zero α] [Add α] [Mul α] (input kernel : List α)
    (N C H W K KH KW OH OW : ℕ) (p : ℕ × α) :
    p ∈ directWrites input kernel N C H W K KH KW OH OW ↔
      ∃ b, b < N ∧ ∃ k, k < K ∧ ∃ h, h < OH ∧ ∃ w, w < OW ∧
        p = (((b * K + k) * OH + h) * OW + w, convFold input kernel C H W KH KW b k h w) := by
  simp only [directWrites, List.mem_flatMap, List.mem_range, List.mem_singleton]

/-- The NCHW flat index determines the position `(b, k, h, w)`. -/
theorem nchw_inj {K OH OW b k h w b' k' h' w' : ℕ}
    (hk : k < K) (hh : h < OH) (hw : w < OW) (hk' : k' < K) (hh' : h' < OH) (hw' : w' < OW)
    (e : ((b * K + k) * OH + h) * OW + w = ((b' * K + k') * OH + h') * OW + w') :
    b = b' ∧ k = k' ∧ h = h' ∧ w = w' := by
  obtain ⟨e1, rfl⟩ := flat_inj hw hw' e
  obtain ⟨e2, rfl⟩ := flat_inj hh hh' e1
  obtain ⟨rfl, rfl⟩ := flat_inj hk hk' e2
  exact ⟨rfl, rfl, rfl, rfl⟩


/-- What `direct_convolve` returns, for any value type: a buffer of length `N*K*OH*OW` whose
cells hold the values accumulated in loop order. -/
theorem direct_convolve_fold {α : Type} [Zero α] [Add α] [Mul α]
    (input kernel output : List α) (N C H W K KH KW : ℕ)
    (hKH : KH ≤ H) (hKW : KW ≤ W)
    (hin : input.length = N * C * H * W) (hker : kernel.length = K * C * KH * KW) :
    ∃ out, direct_convolve input kernel output N C H W K KH KW = some out ∧
      out.length = N * K * (H - KH + 1) * (W - KW + 1) ∧
      ∀ b k h w, b < N → k < K → h < H - KH + 1 → w < W - KW + 1 →
        out[((b * K + k) * (H - KH + 1) + h) * (W - KW + 1) + w]? =
          some (convFold input kernel C H W KH KW b k h w) := by
  refine ⟨_, direct_convolve_eq input kernel output N C H W K KH KW hKH hKW hin hker, ?_, ?_⟩
  · rw [length_applyWrites, length_take_append_replicate]
  · intro b k h w hb hk hh hw
    refine applyWrites_written _ _ _ _ ?_ ?_ ?_
    · rw [length_take_append_replicate]
      exact flat_lt (flat_lt (flat_lt hb hk) hh) hw
    · exact ⟨_, (mem_directWrites _ _ _ _ _ _ _ _ _ _ _ _).2
        ⟨b, hb, k, hk, h, hh, w, hw, rfl⟩, rfl⟩
    · intro p hp hpj
      obtain ⟨b', _, k', hk', h', hh', w', hw', rfl⟩ :=
        (mem_directWrites _ _ _ _ _ _ _ _ _ _ _ _).1 hp
      obtain ⟨rfl, rfl, rfl, rfl⟩ := nchw_inj hk' hh' hw' hk hh hw hpj
      rfl

theorem foldl_add_eq_sum (n : ℕ) (t : ℕ → ℚ) (a : ℚ) :
    (List.range n).foldl (fun s i => s + t i) a = a + ∑ i in Finset.range n, t i := by
  induction n with
  | zero => simp
  | succ n ih =>
    rw [List.range_succ, List.foldl_append, ih, Finset.sum_range_succ, ← add_assoc]
    rfl

/-- Over exact arithmetic the value accumulated in loop order is the sum of the products. -/
theorem convFold_eq_convSum (input kernel : List ℚ) (C H W KH KW b k h w : ℕ) :
    convFold input kernel C H W KH KW b k h w = convSum input kernel C H W KH KW b k h w := by
  unfold convFold convSum
  simp only [foldl_add_eq_sum, zero_add]

/-- What `direct_convolve` returns over exact arithmetic: a buffer of length `N*K*OH*OW`
holding the cross-correlation sums. -/
theorem direct_convolve_get (input kernel output : List ℚ) (N C H W K KH KW : ℕ)
    (hKH : KH ≤ H) (hKW : KW ≤ W)
    (hin : input.length = N * C * H * W) (hker : kernel.length = K * C * KH * KW) :
    ∃ out, direct_convolve input kernel output N C H W K KH KW = some out ∧
      out.length = N * K * (H - KH + 1) * (W - KW + 1) ∧
      ∀ b k h w, b < N → k < K → h < H - KH + 1 → w < W - KW + 1 →
        out[((b * K + k) * (H - KH + 1) + h) * (W - KW + 1) + w]? =
          some (convSum input kernel C H W KH KW b k h w) := by
  obtain ⟨out, h1, h2, h3⟩ :=
    direct_convolve_fold input kernel output N C H W K KH KW hKH hKW hin hker
  refine ⟨out, h1, h2, fun b k h w hb hk hh hw => ?_⟩
  rw [h3 b k h w hb hk hh hw, convFold_eq_convSum]

/-! ## The im2col transform with unbounded integers -/

/-- Under the shape preconditions `im2col_unbounded` succeeds, and its result is the resized
`col` vector after the assignments `im2colWrites`. -/
theorem im2col_unbounded_eq (input col : List ℚ) (N C H W KH KW : ℕ)
    (hKH : KH ≤ H) (hKW : KW ≤ W) (hin : input.length = N * C * H * W) :
    im2col_unbounded input col N C H W KH KW =
      some (applyWrites
        (col.take (N * (H - KH + 1) * (W - KW + 1) * (C * KH * KW)) ++
          List.replicate (N * (H - KH + 1) * (W - KW + 1) * (C * KH * KW) - col.length) 0)
        (im2colWrites input N C H W KH KW (H - KH + 1) (W - KW + 1))) := by
  have eOH : (H : ℤ) - KH + 1 = ((H - KH + 1 : ℕ) : ℤ) := by omega
  have eOW : (W : ℤ) - KW + 1 = ((W - KW + 1 : ℕ) : ℤ) := by omega
  have hOH : (H - KH + 1) + KH = H + 1 := by omega
  have hOW : (W - KW + 1) + KW = W + 1 := by omega
  generalize H - KH + 1 = OH at eOH hOH
  generalize W - KW + 1 = OW at eOW hOW
  have eL : (N : ℤ) * OH * OW * ((C : ℤ) * KH * KW) = ((N * OH * OW * (C * KH * KW) : ℕ) : ℤ) := by
    push_cast; ring
  unfold im2col_unbounded im2colWrites
  simp only [eOH, eOW, eL, resize_natCast, Option.bind_eq_bind, Option.some_bind]
  refine forLoop_writes (N * OH * OW * (C * KH * KW)) N _ _ (fun b hb out hout => ?_) _
    (length_take_append_replicate _ _ _)
  refine forLoop_writes (N * OH * OW * (C * KH * KW)) OH _ _ (fun h hh out hout => ?_) _ hout
  refine forLoop_writes (N * OH * OW * (C * KH * KW)) OW _ _ (fun w hw out hout => ?_) _ hout
  refine forLoop_writes (N * OH * OW * (C * KH * KW)) C _ _ (fun c hc out hout => ?_) _ hout
  refine forLoop_writes (N * OH * OW * (C * KH * KW)) KH _ _ (fun kh hkh out hout => ?_) _ hout
  refine forLoop_writes (N * OH * OW * (C * KH * KW)) KW _ _ (fun kw hkw out hout => ?_) _ hout
  have e1 : (((b : ℤ) * C + c) * H + ((h : ℤ) + kh)) * W + ((w : ℤ) + kw)
      = ((((b * C + c) * H + (h + kh)) * W + (w + kw) : ℕ) : ℤ) := by push_cast; ring
  have e2 : (((b : ℤ) * OH + h) * OW + w) * ((C : ℤ) * KH * KW) + (((c : ℤ) * KH + kh) * KW + kw)
      = ((((b * OH + h) * OW + w) * (C * KH * KW) + ((c * KH + kh) * KW + kw) : ℕ) : ℤ) := by
    push_cast; ring
  have l1 : ((b * C + c) * H + (h + kh)) * W + (w + kw) < input.length := by
    rw [hin]
    exact flat_lt (flat_lt (flat_lt hb hc) (by omega)) (by omega)
  have l2 : ((b * OH + h) * OW + w) * (C * KH * KW) + ((c * KH + kh) * KW + kw) < out.length := by
    rw [hout]
    exact flat_lt (flat_lt (flat_lt hb hh) hw) (flat_lt (flat_lt hc hkh) hkw)
  simp only [e1, e2, readAt_of_lt _ _ l1, Option.some_bind, writeAt_of_lt _ _ _ l2]

theorem mem_im2colWrites {α : Type} [Zero α] (input : List α) (N C H W KH KW OH OW : ℕ)
    (p : ℕ × α) :
    p ∈ im2colWrites input N C H W KH KW OH OW ↔
      ∃ b, b < N ∧ ∃ h, h < OH ∧ ∃ w, w < OW ∧ ∃ c, c < C ∧ ∃ kh, kh < KH ∧ ∃ kw, kw < KW ∧
        p = (((b * OH + h) * OW + w) * (C * KH * KW) + ((c * KH + kh) * KW + kw),
          input.getD (((b * C + c) * H + (h + kh)) * W + (w + kw)) 0) := by
  simp only [im2colWrites, List.mem_flatMap, List.mem_range, List.mem_singleton]

/-- The flat patch-matrix index determines the loop position `(b, h, w, c, kh, kw)`. -/
theorem col_inj {C KH KW OH OW b h w c kh kw b' h' w' c' kh' kw' : ℕ}
    (hh : h < OH) (hw : w < OW) (hc : c < C) (hkh : kh < KH) (hkw : kw < KW)
    (hh' : h' < OH) (hw' : w' < OW) (hc' : c' < C) (hkh' : kh' < KH) (hkw' : kw' < KW)
    (e : ((b * OH + h) * OW + w) * (C * KH * KW) + ((c * KH + kh) * KW + kw) =
      ((b' * OH + h') * OW + w') * (C * KH * KW) + ((c' * KH + kh') * KW + kw')) :
    b = b' ∧ h = h' ∧ w = w' ∧ c = c' ∧ kh = kh' ∧ kw = kw' := by
  obtain ⟨e1, e2⟩ := flat_inj (flat_lt (flat_lt hc hkh) hkw) (flat_lt (flat_lt hc' hkh') hkw') e
  obtain ⟨e3, rfl⟩ := flat_inj hw hw' e1
  obtain ⟨rfl, rfl⟩ := flat_inj hh hh' e3
  obtain ⟨e4, rfl⟩ := flat_inj hkw hkw' e2
  obtain ⟨rfl, rfl⟩ := flat_inj hkh hkh' e4
  exact ⟨rfl, rfl, rfl, rfl, rfl, rfl⟩

/-- What `im2col_unbounded` returns: a buffer of length `(N*OH*OW)*(C*KH*KW)` holding the input
patches. -/
theorem im2col_unbounded_get (input col : List ℚ) (N C H W KH KW : ℕ)
    (hKH : KH ≤ H) (hKW : KW ≤ W) (hin : input.length = N * C * H * W) :
    ∃ out, im2col_unbounded input col N C H W KH KW = some out ∧
      out.length = (N * (H - KH + 1) * (W - KW + 1)) * (C * KH * KW) ∧
      ∀ b h w c kh kw, b < N → h < H - KH + 1 → w < W - KW + 1 → c < C → kh < KH → kw < KW →
        out[((b * (H - KH + 1) + h) * (W - KW + 1) + w) * (C * KH * KW) +
            ((c * KH + kh) * KW + kw)]? =
          some (input.getD (((b * C + c) * H + (h + kh)) * W + (w + kw)) 0) := by
  refine ⟨_, im2col_unbounded_eq input col N C H W KH KW hKH hKW hin, ?_, ?_⟩
  · rw [length_applyWrites, length_take_append_replicate]
  · intro b h w c kh kw hb hh hw hc hkh hkw
    refine applyWrites_written _ _ _ _ ?_ ?_ ?_
    · rw [length_take_append_replicate]
      exact flat_lt (flat_lt (flat_lt hb hh) hw) (flat_lt (flat_lt hc hkh) hkw)
    · exact ⟨_, (mem_im2colWrites _ _ _ _ _ _ _ _ _ _).2
        ⟨b, hb, h, hh, w, hw, c, hc, kh, hkh, kw, hkw, rfl⟩, rfl⟩
    · intro p hp hpj
      obtain ⟨b', _, h', hh', w', hw', c', hc', kh', hkh', kw', hkw', rfl⟩ :=
        (mem_im2colWrites _ _ _ _ _ _ _ _ _ _).1 hp
      obtain ⟨rfl, rfl, rfl, rfl, rfl, rfl⟩ :=
        col_inj hh' hw' hc' hkh' hkw' hh hw hc hkh hkw hpj
      rfl

/-! ## The im2col transform in 32-bit arithmetic -/

/-- On a shape that fits, `im2col_traced` succeeds; its result is the resized `col` vector after
the assignments `im2colWrites`, and its log is `im2colLog`. -/
theorem im2col_traced_eq {α : Type} [Zero α] (input col : List α) (N C H W KH KW : ℕ)
    (hKH1 : 1 ≤ KH) (hKH : KH ≤ H) (hKW1 : 1 ≤ KW) (hKW : KW ≤ W)
    (hin : input.length = N * C * H * W) (hf : im2col_fits N C H W KH KW) :
    im2col_traced input col N C H W KH KW =
      some (applyWrites
        (col.take (N * (H - KH + 1) * (W - KW + 1) * (C * KH * KW)) ++
          List.replicate (N * (H - KH + 1) * (W - KW + 1) * (C * KH * KW) - col.length) 0)
        (im2colWrites input N C H W KH KW (H - KH + 1) (W - KW + 1)),
        im2colLog N C H W KH KW (H - KH + 1) (W - KW + 1)) := by
  obtain ⟨_, _, hH, hW, hrows, hcols, hsize, hinput⟩ := hf
  have eOH : wrap32 (wrap32 ((H : ℤ) - KH) + 1) = ((H - KH + 1 : ℕ) : ℤ) := by
    unfold wrap32; omega
  have eOW : wrap32 (wrap32 ((W : ℤ) - KW) + 1) = ((W - KW + 1 : ℕ) : ℤ) := by
    unfold wrap32; omega
  have hOH : (H - KH + 1) + KH = H + 1 := by omega
  have hOW : (W - KW + 1) + KW = W + 1 := by omega
  have hOH1 : 1 ≤ H - KH + 1 := by omega
  have hOW1 : 1 ≤ W - KW + 1 := by omega
  generalize H - KH + 1 = OH at eOH hOH hOH1 hrows hsize
  generalize W - KW + 1 = OW at eOW hOW hOW1 hrows hsize
  have hH1 : 1 ≤ H := le_trans hKH1 hKH
  have hW1 : 1 ≤ W := le_trans hKW1 hKW
  have eRows : wrap32 (wrap32 ((N : ℤ) * OH) * OW) = ((N * OH * OW : ℕ) : ℤ) := by
    rw [wrap32_mul N OH (lt_of_le_of_lt (le_mul_of_one_le _ hOW1) hrows),
      wrap32_mul (N * OH) OW hrows]
  have eCols : wrap32 (wrap32 ((C : ℤ) * KH) * KW) = ((C * KH * KW : ℕ) : ℤ) := by
    rw [wrap32_mul C KH (lt_of_le_of_lt (le_mul_of_one_le _ hKW1) hcols),
      wrap32_mul (C * KH) KW hcols]
  have eSize : wrap32 (((N * OH * OW : ℕ) : ℤ) * ((C * KH * KW : ℕ) : ℤ)) =
      ((N * OH * OW * (C * KH * KW) : ℕ) : ℤ) := wrap32_mul _ _ hsize
  unfold im2col_traced im2colWrites im2colLog
  simp only [eOH, eOW, eRows, eCols, eSize, resize_natCast, Option.bind_eq_bind,
    Option.some_bind]
  refine forLoop_writes_log (N * OH * OW * (C * KH * KW)) N _ _ _ (fun b hb st hst => ?_)
    (_, []) (length_take_append_replicate _ _ _)
  refine forLoop_writes_log (N * OH * OW * (C * KH * KW)) OH _ _ _ (fun h hh st hst => ?_) _ hst
  refine forLoop_writes_log (N * OH * OW * (C * KH * KW)) OW _ _ _ (fun w hw st hst => ?_) _ hst
  refine forLoop_writes_log (N * OH * OW * (C * KH * KW)) C _ _ _ (fun c hc st hst => ?_) _ hst
  refine forLoop_writes_log (N * OH * OW * (C * KH * KW)) KH _ _ _ (fun kh hkh st hst => ?_) _
    hst
  refine forLoop_writes_log (N * OH * OW * (C * KH * KW)) KW _ _ _ (fun kw hkw st hst => ?_) _
    hst
  have hhk : h + kh < H := window_lt hh hkh hOH
  have hwk : w + kw < W := window_lt hw hkw hOW
  have l1' : ((b * C + c) * H + (h + kh)) * W + (w + kw) < N * C * H * W :=
    flat_lt (flat_lt (flat_lt hb hc) hhk) hwk
  have l1 : ((b * C + c) * H + (h + kh)) * W + (w + kw) < input.length := hin ▸ l1'
  have hr : (b * OH + h) * OW + w < N * OH * OW := flat_lt (flat_lt hb hh) hw
  have hcc : (c * KH + kh) * KW + kw < C * KH * KW := flat_lt (flat_lt hc hkh) hkw
  have l2' : ((b * OH + h) * OW + w) * (C * KH * KW) + ((c * KH + kh) * KW + kw) <
      N * OH * OW * (C * KH * KW) := flat_lt hr hcc
  have l2 : ((b * OH + h) * OW + w) * (C * KH * KW) + ((c * KH + kh) * KW + kw) <
      st.1.length := hst ▸ l2'
  have hii := lt_trans l1' hinput
  have hdst := lt_trans l2' hsize
  have hr' := lt_trans hr hrows
  have hcc' := lt_trans hcc hcols
  have b1 : b * OH + h < 2 ^ 31 :=
    lt_of_le_of_lt (le_trans (le_mul_of_one_le _ hOW1) (Nat.le_add_right _ _)) hr'
  have b2 : c * KH + kh < 2 ^ 31 :=
    lt_of_le_of_lt (le_trans (le_mul_of_one_le _ hKW1) (Nat.le_add_right _ _)) hcc'
  have b4 : (b * C + c) * H + (h + kh) < 2 ^ 31 :=
    lt_of_le_of_lt (le_trans (le_mul_of_one_le _ hW1) (Nat.le_add_right _ _)) hii
  have b3 : b * C + c < 2 ^ 31 :=
    lt_of_le_of_lt (le_trans (le_mul_of_one_le _ hH1) (Nat.le_add_right _ _)) b4
  have w1 : wrap32 ((h : ℤ) + kh) = ((h + kh : ℕ) : ℤ) := wrap32_add h kh (lt_trans hhk hH)
  have w2 : wrap32 ((w : ℤ) + kw) = ((w + kw : ℕ) : ℤ) := wrap32_add w kw (lt_trans hwk hW)
  have w3 := wrap32_mul_add b OH h b1
  have w4 := wrap32_mul_add (b * OH + h) OW w hr'
  have w5 := wrap32_mul_add c KH kh b2
  have w6 := wrap32_mul_add (c * KH + kh) KW kw hcc'
  have w7 := wrap32_mul_add b C c b3
  have w8 := wrap32_mul_add (b * C + c) H (h + kh) b4
  have w9 := wrap32_mul_add ((b * C + c) * H + (h + kh)) W (w + kw) hii
  have w10 := wrap32_mul_add ((b * OH + h) * OW + w) (C * KH * KW) ((c * KH + kh) * KW + kw) hdst
  simp only [w1, w2, w3, w4, w5, w6, w7, w8, w9, w10, readAt_of_lt _ _ l1, Option.some_bind,
    writeAt_of_lt _ _ _ l2, Option.pure_def]

/-- On a shape that fits, `im2col` succeeds, and its result is the resized `col` vector after
the assignments `im2colWrites`. -/
theorem im2col_eq {α : Type} [Zero α] (input col : List α) (N C H W KH KW : ℕ)
    (hKH1 : 1 ≤ KH) (hKH : KH ≤ H) (hKW1 : 1 ≤ KW) (hKW : KW ≤ W)
    (hin : input.length = N * C * H * W) (hf : im2col_fits N C H W KH KW) :
    im2col input col N C H W KH KW =
      some (applyWrites
        (col.take (N * (H - KH + 1) * (W - KW + 1) * (C * KH * KW)) ++
          List.replicate (N * (H - KH + 1) * (W - KW + 1) * (C * KH * KW) - col.length) 0)
        (im2colWrites input N C H W KH KW (H - KH + 1) (W - KW + 1))) := by
  unfold im2col
  rw [im2col_traced_eq input col N C H W KH KW hKH1 hKH hKW1 hKW hin hf]
  rfl

/-- What `im2col` returns on a shape that fits: a buffer of length `(N*OH*OW)*(C*KH*KW)`
holding the input patches. -/
theorem im2col_get {α : Type} [Zero α] (input col : List α) (N C H W KH KW : ℕ)
    (hKH1 : 1 ≤ KH) (hKH : KH ≤ H) (hKW1 : 1 ≤ KW) (hKW : KW ≤ W)
    (hin : input.length = N * C * H * W) (hf : im2col_fits N C H W KH KW) :
    ∃ out, im2col input col N C H W KH KW = some out ∧
      out.length = (N * (H - KH + 1) * (W - KW + 1)) * (C * KH * KW) ∧
      ∀ b h w c kh kw, b < N → h < H - KH + 1 → w < W - KW + 1 → c < C → kh < KH → kw < KW →
        out[((b * (H - KH + 1) + h) * (W - KW + 1) + w) * (C * KH * KW) +
            ((c * KH + kh) * KW + kw)]? =
          some (input.getD (((b * C + c) * H + (h + kh)) * W + (w + kw)) 0) := by
  refine ⟨_, im2col_eq input col N C H W KH KW hKH1 hKH hKW1 hKW hin hf, ?_, ?_⟩
  · rw [length_applyWrites, length_take_append_replicate]
  · intro b h w c kh kw hb hh hw hc hkh hkw
    refine applyWrites_written _ _ _ _ ?_ ?_ ?_
    · rw [length_take_append_replicate]
      exact flat_lt (flat_lt (flat_lt hb hh) hw) (flat_lt (flat_lt hc hkh) hkw)
    · exact ⟨_, (mem_im2colWrites _ _ _ _ _ _ _ _ _ _).2
        ⟨b, hb, h, hh, w, hw, c, hc, kh, hkh, kw, hkw, rfl⟩, rfl⟩
    · intro p hp hpj
      obtain ⟨b', _, h', hh', w', hw', c', hc', kh', hkh', kw', hkw', rfl⟩ :=
        (mem_im2colWrites _ _ _ _ _ _ _ _ _ _).1 hp
      obtain ⟨rfl, rfl, rfl, rfl, rfl, rfl⟩ :=
        col_inj hh' hw' hc' hkh' hkw' hh hw hc hkh hkw hpj
      rfl

/-! ## The reference matrix multiply -/
theorem mem_gemmWrites (alpha : ℚ) (A B : List ℚ) (M N K : ℕ) (q : ℕ × ℚ) :
    q ∈ gemmWrites alpha A B M N K ↔
      ∃ m, m < M ∧ ∃ n, n < N ∧
        q = (m * N + n,
          alpha * ∑ p in Finset.range K, A.getD (m * K + p) 0 * B.getD (n * K + p) 0) := by
  simp only [gemmWrites, List.mem_flatMap, List.mem_range, List.mem_singleton]

theorem cblas_dgemm_eq (alpha : ℚ) (A B Cm : List ℚ) (M N K : ℕ)
    (hA : A.length = M * K) (hB : B.length = N * K) (hC : Cm.length = M * N) :
    cblas_dgemm M N K alpha A K B K 0 Cm N = some (applyWrites Cm (gemmWrites alpha A B M N K)) := by
  unfold cblas_dgemm gemmWrites
  refine forLoop_writes (M * N) M _ _ (fun m hm out hout => ?_) _ hC
  refine forLoop_writes (M * N) N _ _ (fun n hn out hout => ?_) _ hout
  have hs : forLoop (K : ℤ) (fun p acc =>
      (readAt A ((m : ℤ) * K + p)).bind fun a =>
        (readAt B ((n : ℤ) * K + p)).bind fun b => some (acc + a * b)) 0 =
      some (0 + ∑ p in Finset.range K, A.getD (m * K + p) 0 * B.getD (n * K + p) 0) := by
    refine forLoop_sum K _ _ (fun p hp s => ?_) 0
    have e1 : (m : ℤ) * K + p = ((m * K + p : ℕ) : ℤ) := by push_cast; ring
    have e2 : (n : ℤ) * K + p = ((n * K + p : ℕ) : ℤ) := by push_cast; ring
    have l1 : m * K + p < A.length := by rw [hA]; exact flat_lt hm hp
    have l2 : n * K + p < B.length := by rw [hB]; exact flat_lt hn hp
    simp only [e1, e2, readAt_of_lt _ _ l1, readAt_of_lt _ _ l2, Option.some_bind]
  have e : (m : ℤ) * N + n = ((m * N + n : ℕ) : ℤ) := by push_cast; ring
  have l : m * N + n < out.length := by rw [hout]; exact flat_lt hm hn
  simp only [Option.bind_eq_bind, Option.pure_def, hs, Option.some_bind, e,
    readAt_of_lt _ _ l, writeAt_of_lt _ _ _ l, zero_add, zero_mul, add_zero]

/-- What the reference `cblas_dgemm` returns for `beta = 0`: the row-major product
`alpha * A(M,K) * B(N,K)^T`. -/
theorem cblas_dgemm_get (alpha : ℚ) (A B Cm : List ℚ) (M N K : ℕ)
    (hA : A.length = M * K) (hB : B.length = N * K) (hC : Cm.length = M * N) :
    ∃ out, cblas_dgemm M N K alpha A K B K 0 Cm N = some out ∧ out.length = M * N ∧
      ∀ m n, m < M → n < N →
        out[m * N + n]? =
          some (alpha * ∑ p in Finset.range K, A.getD (m * K + p) 0 * B.getD (n * K + p) 0) := by
  refine ⟨_, cblas_dgemm_eq alpha A B Cm M N K hA hB hC, ?_, ?_⟩
  · rw [length_applyWrites, hC]
  · intro m n hm hn
    refine applyWrites_written _ _ _ _ ?_ ?_ ?_
    · rw [hC]; exact flat_lt hm hn
    · exact ⟨_, (mem_gemmWrites _ _ _ _ _ _ _).2 ⟨m, hm, n, hn, rfl⟩, rfl⟩
    · intro q hq hqj
      obtain ⟨m', _, n', hn', rfl⟩ := (mem_gemmWrites _ _ _ _ _ _ _).1 hq
      obtain ⟨rfl, rfl⟩ := flat_inj hn' hn hqj
      rfl

/-! ## The layout conversion -/
theorem mem_layoutWrites (src : List ℚ) (N K OH OW : ℕ) (p : ℕ × ℚ) :
    p ∈ layoutWrites src N K OH OW ↔
      ∃ b, b < N ∧ ∃ k, k < K ∧ ∃ h, h < OH ∧ ∃ w, w < OW ∧
        p = (((b * K + k) * OH + h) * OW + w, src.getD (((b * OH + h) * OW + w) * K + k) 0) := by
  simp only [layoutWrites, List.mem_flatMap, List.mem_range, List.mem_singleton]

theorem nhwc_to_nchw_eq (src output : List ℚ) (N K OH OW : ℕ)
    (hsrc : src.length = N * K * OH * OW) :
    nhwc_to_nchw src output N K OH OW =
      some (applyWrites
        (output.take (N * K * OH * OW) ++ List.replicate (N * K * OH * OW - output.length) 0)
        (layoutWrites src N K OH OW)) := by
  have eL : (N : ℤ) * K * OH * OW = ((N * K * OH * OW : ℕ) : ℤ) := by push_cast; ring
  unfold nhwc_to_nchw layoutWrites
  simp only [eL, resize_natCast, Option.bind_eq_bind, Option.some_bind]
  refine forLoop_writes (N * K * OH * OW) N _ _ (fun b hb out hout => ?_) _
    (length_take_append_replicate _ _ _)
  refine forLoop_writes (N * K * OH * OW) K _ _ (fun k hk out hout => ?_) _ hout
  refine forLoop_writes (N * K * OH * OW) OH _ _ (fun h hh out hout => ?_) _ hout
  refine forLoop_writes (N * K * OH * OW) OW _ _ (fun w hw out hout => ?_) _ hout
  have e1 : (((b : ℤ) * OH + h) * OW + w) * K + k
      = ((((b * OH + h) * OW + w) * K + k : ℕ) : ℤ) := by push_cast; ring
  have e2 : (((b : ℤ) * K + k) * OH + h) * OW + w
      = ((((b * K + k) * OH + h) * OW + w : ℕ) : ℤ) := by push_cast; ring
  have l1 : ((b * OH + h) * OW + w) * K + k < src.length := by
    rw [hsrc, show N * K * OH * OW = N * OH * OW * K by ring]
    exact flat_lt (flat_lt (flat_lt hb hh) hw) hk
  have l2 : ((b * K + k) * OH + h) * OW + w < out.length := by
    rw [hout]
    exact flat_lt (flat_lt (flat_lt hb hk) hh) hw
  simp only [e1, e2, readAt_of_lt _ _ l1, Option.some_bind, writeAt_of_lt _ _ _ l2]

/-- What the layout step returns: `dest[((b*K + k)*OH + h)*OW + w] = src[((b*OH + h)*OW + w)*K + k]`. -/
theorem nhwc_to_nchw_get (src output : List ℚ) (N K OH OW : ℕ)
    (hsrc : src.length = N * K * OH * OW) :
    ∃ dest, nhwc_to_nchw src output N K OH OW = some dest ∧ dest.length = N * K * OH * OW ∧
      ∀ b k h w, b < N → k < K → h < OH → w < OW →
        dest[((b * K + k) * OH + h) * OW + w]? =
          some (src.getD (((b * OH + h) * OW + w) * K + k) 0) := by
  refine ⟨_, nhwc_to_nchw_eq src output N K OH OW hsrc, ?_, ?_⟩
  · rw [length_applyWrites, length_take_append_replicate]
  · intro b k h w hb hk hh hw
    refine applyWrites_written _ _ _ _ ?_ ?_ ?_
    · rw [length_take_append_replicate]
      exact flat_lt (flat_lt (flat_lt hb hk) hh) hw
    · exact ⟨_, (mem_layoutWrites _ _ _ _ _ _).2 ⟨b, hb, k, hk, h, hh, w, hw, rfl⟩, rfl⟩
    · intro p hp hpj
      obtain ⟨b', _, k', hk', h', hh', w', hw', rfl⟩ := (mem_layoutWrites _ _ _ _ _ _).1 hp
      obtain ⟨rfl, rfl, rfl, rfl⟩ := nchw_inj hk' hh' hw' hk hh hw hpj
      rfl

/-! ## The im2col + GEMM pipeline -/
theorem flat_surj {A B i : ℕ} (h : i < A * B) : ∃ a, a < A ∧ ∃ b, b < B ∧ i = a * B + b := by
  have hB : 0 < B := by
    rcases Nat.eq_zero_or_pos B with h0 | h0
    · rw [h0, Nat.mul_zero] at h; exact absurd h (Nat.not_lt_zero _)
    · exact h0
  refine ⟨i / B, ?_, i % B, Nat.mod_lt _ hB, ?_⟩
  · exact Nat.div_lt_of_lt_mul (by rwa [Nat.mul_comm] at h)
  · rw [Nat.mul_comm]; exact (Nat.div_add_mod i B).symm

/-- Every flat index below `N*K*OH*OW` is the NCHW index of some position `(b, k, h, w)`. -/
theorem nchw_surj {N K OH OW i : ℕ} (h : i < N * K * OH * OW) :
    ∃ b, b < N ∧ ∃ k, k < K ∧ ∃ y, y < OH ∧ ∃ x, x < OW ∧
      i = ((b * K + k) * OH + y) * OW + x := by
  obtain ⟨a, ha, x, hx, rfl⟩ := flat_surj h
  obtain ⟨a', ha', y, hy, rfl⟩ := flat_surj ha
  obtain ⟨b, hb, k, hk, rfl⟩ := flat_surj ha'
  exact ⟨b, hb, k, hk, y, hy, x, hx, rfl⟩

/-- A sum over a flattened index range is the nested sum over its two coordinates. -/
theorem sum_range_mul (f : ℕ → ℚ) (A B : ℕ) :
    ∑ p in Finset.range (A * B), f p =
      ∑ a in Finset.range A, ∑ b in Finset.range B, f (a * B + b) := by
  induction A with
  | zero => simp
  | succ A ih => rw [Nat.succ_mul, Finset.sum_range_add, ih, Finset.sum_range_succ]

theorem getD_of_getElem? {l : List ℚ} {i : ℕ} {v : ℚ} (h : l[i]? = some v) :
    l.getD i 0 = v := by
  simp [List.getD_eq_getElem?_getD, h]

/-- The dot product of a patch row with a kernel row is the cross-correlation sum. -/
theorem dot_eq_convSum (input kernel col : List ℚ) (N C H W KH KW OH OW b k h w : ℕ)
    (hb : b < N) (hh : h < OH) (hw : w < OW)
    (hcol : ∀ b h w c kh kw, b < N → h < OH → w < OW → c < C → kh < KH → kw < KW →
        col[((b * OH + h) * OW + w) * (C * KH * KW) + ((c * KH + kh) * KW + kw)]? =
          some (input.getD (((b * C + c) * H + (h + kh)) * W + (w + kw)) 0)) :
    ∑ p in Finset.range (C * KH * KW),
        col.getD (((b * OH + h) * OW + w) * (C * KH * KW) + p) 0 *
          kernel.getD (k * (C * KH * KW) + p) 0 =
      convSum input kernel C H W KH KW b k h w := by
  unfold convSum
  rw [sum_range_mul, sum_range_mul]
  refine Finset.sum_congr rfl (fun c hc => Finset.sum_congr rfl (fun kh hkh =>
    Finset.sum_congr rfl (fun kw hkw => ?_)))
  rw [getD_of_getElem? (hcol b h w c kh kw hb hh hw (Finset.mem_range.1 hc)
    (Finset.mem_range.1 hkh) (Finset.mem_range.1 hkw))]
  congr 2
  ring

/-- What `convolve_im2col_gemm_unbounded` returns: a buffer of length `N*K*OH*OW` holding the
cross-correlation sums. -/
theorem convolve_im2col_gemm_unbounded_get (input kernel output : List ℚ) (N C H W K KH KW : ℕ)
    (hKH : KH ≤ H) (hKW : KW ≤ W)
    (hin : input.length = N * C * H * W) (hker : kernel.length = K * C * KH * KW) :
    ∃ out, convolve_im2col_gemm_unbounded input kernel output N C H W K KH KW = some out ∧
      out.length = N * K * (H - KH + 1) * (W - KW + 1) ∧
      ∀ b k h w, b < N → k < K → h < H - KH + 1 → w < W - KW + 1 →
        out[((b * K + k) * (H - KH + 1) + h) * (W - KW + 1) + w]? =
          some (convSum input kernel C H W KH KW b k h w) := by
  obtain ⟨col, hcol, hcollen, hcolget⟩ := im2col_unbounded_get input [] N C H W KH KW hKH hKW hin
  have eOH : (H : ℤ) - KH + 1 = ((H - KH + 1 : ℕ) : ℤ) := by omega
  have eOW : (W : ℤ) - KW + 1 = ((W - KW + 1 : ℕ) : ℤ) := by omega
  generalize H - KH + 1 = OH at eOH hcol hcollen hcolget ⊢
  generalize W - KW + 1 = OW at eOW hcol hcollen hcolget ⊢
  obtain ⟨g, hg, hglen, hgget⟩ := cblas_dgemm_get 1 col kernel
    (List.take (N * OH * OW * K) [] ++ List.replicate (N * OH * OW * K - ([] : List ℚ).length) 0)
    (N * OH * OW) K (C * KH * KW) hcollen (by rw [hker]; ring)
    (length_take_append_replicate _ _ _)
  obtain ⟨out, hout, houtlen, houtget⟩ := nhwc_to_nchw_get g output N K OH OW
    (by rw [hglen]; ring)
  have eM : (N : ℤ) * OH * OW = ((N * OH * OW : ℕ) : ℤ) := by push_cast; ring
  have eK : (C : ℤ) * KH * KW = ((C * KH * KW : ℕ) : ℤ) := by push_cast; ring
  have eMN : ((N * OH * OW : ℕ) : ℤ) * (K : ℤ) = ((N * OH * OW * K : ℕ) : ℤ) := by push_cast; ring
  refine ⟨out, ?_, houtlen, ?_⟩
  · unfold convolve_im2col_gemm_unbounded
    simp only [eOH, eOW, eM, eK, eMN, hcol, resize_natCast, hg, hout, Option.bind_eq_bind,
      Option.some_bind]
  · intro b k h w hb hk hh hw
    rw [houtget b k h w hb hk hh hw,
      getD_of_getElem? (hgget ((b * OH + h) * OW + w) k (flat_lt (flat_lt hb hh) hw) hk), one_mul,
      dot_eq_convSum input kernel col N C H W KH KW OH OW b k h w hb hh hw hcolget]

/-- What `convolve_im2col_gemm` returns on a shape that fits: a buffer of length `N*K*OH*OW`
holding the cross-correlation sums. -/
theorem convolve_im2col_gemm_get (input kernel output : List ℚ) (N C H W K KH KW : ℕ)
    (hKH1 : 1 ≤ KH) (hKH : KH ≤ H) (hKW1 : 1 ≤ KW) (hKW : KW ≤ W)
    (hin : input.length = N * C * H * W) (hker : kernel.length = K * C * KH * KW)
    (hf : im2col_fits N C H W KH KW) :
    ∃ out, convolve_im2col_gemm input kernel output N C H W K KH KW = some out ∧
      out.length = N * K * (H - KH + 1) * (W - KW + 1) ∧
      ∀ b k h w, b < N → k < K → h < H - KH + 1 → w < W - KW + 1 →
        out[((b * K + k) * (H - KH + 1) + h) * (W - KW + 1) + w]? =
          some (convSum input kernel C H W KH KW b k h w) := by
  obtain ⟨col, hcol, hcollen, hcolget⟩ := im2col_get input [] N C H W KH KW hKH1 hKH hKW1 hKW hin hf
  have eOH : (H : ℤ) - KH + 1 = ((H - KH + 1 : ℕ) : ℤ) := by omega
  have eOW : (W : ℤ) - KW + 1 = ((W - KW + 1 : ℕ) : ℤ) := by omega
  generalize H - KH + 1 = OH at eOH hcol hcollen hcolget ⊢
  generalize W - KW + 1 = OW at eOW hcol hcollen hcolget ⊢
  obtain ⟨g, hg, hglen, hgget⟩ := cblas_dgemm_get 1 col kernel
    (List.take (N * OH * OW * K) [] ++ List.replicate (N * OH * OW * K - ([] : List ℚ).length) 0)
    (N * OH * OW) K (C * KH * KW) hcollen (by rw [hker]; ring)
    (length_take_append_replicate _ _ _)
  obtain ⟨out, hout, houtlen, houtget⟩ := nhwc_to_nchw_get g output N K OH OW
    (by rw [hglen]; ring)
  have eM : (N : ℤ) * OH * OW = ((N * OH * OW : ℕ) : ℤ) := by push_cast; ring
  have eK : (C : ℤ) * KH * KW = ((C * KH * KW : ℕ) : ℤ) := by push_cast; ring
  have eMN : ((N * OH * OW : ℕ) : ℤ) * (K : ℤ) = ((N * OH * OW * K : ℕ) : ℤ) := by push_cast; ring
  refine ⟨out, ?_, houtlen, ?_⟩
  · unfold convolve_im2col_gemm
    simp only [eOH, eOW, eM, eK, eMN, hcol, resize_natCast, hg, hout, Option.bind_eq_bind,
      Option.some_bind]
  · intro b k h w hb hk hh hw
    rw [houtget b k h w hb hk hh hw,
      getD_of_getElem? (hgget ((b * OH + h) * OW + w) k (flat_lt (flat_lt hb hh) hw) hk), one_mul,
      dot_eq_convSum input kernel col N C H W KH KW OH OW b k h w hb hh hw hcolget]

/-- The NHWC flat index determines the position `(b, k, h, w)`. -/
theorem nhwc_inj {K OH OW b k h w b' k' h' w' : ℕ}
    (hk : k < K) (hh : h < OH) (hw : w < OW) (hk' : k' < K) (hh' : h' < OH) (hw' : w' < OW)
    (e : ((b * OH + h) * OW + w) * K + k = ((b' * OH + h') * OW + w') * K + k') :
    b = b' ∧ k = k' ∧ h = h' ∧ w = w' := by
  obtain ⟨e1, rfl⟩ := flat_inj hk hk' e
  obtain ⟨e2, rfl⟩ := flat_inj hw hw' e1
  obtain ⟨rfl, rfl⟩ := flat_inj hh hh' e2
  exact ⟨rfl, rfl, rfl, rfl⟩

/-- Every flat index below `N*K*OH*OW` is the NHWC index of some position `(b, k, h, w)`. -/
theorem nhwc_surj {N K OH OW i : ℕ} (h : i < N * K * OH * OW) :
    ∃ b, b < N ∧ ∃ k, k < K ∧ ∃ y, y < OH ∧ ∃ x, x < OW ∧
      i = ((b * OH + y) * OW + x) * K + k := by
  rw [show N * K * OH * OW = N * OH * OW * K by ring] at h
  obtain ⟨a, ha, k, hk, rfl⟩ := flat_surj h
  obtain ⟨a', ha', x, hx, rfl⟩ := flat_surj ha
  obtain ⟨b, hb, y, hy, rfl⟩ := flat_surj ha'
  exact ⟨b, hb, k, hk, y, hy, x, hx, rfl⟩

theorem getElem?_of_getD {α : Type} [Zero α] {l : List α} {i : ℕ} (h : i < l.length) :
    l[i]? = some (l.getD i 0) := by
  rw [List.getD_eq_getElem?_getD, List.getElem?_eq_getElem h]
  rfl

/-! ## The im2col transform on a shape that does not fit -/

theorem writeAt_neg {α : Type} (v : List α) (i : Int) (x : α) (h : i < 0) :
    writeAt v i x = none := by
  unfold writeAt
  rw [if_neg]
  intro h'
  omega

/-- The shape `batchsize = ic = 256`, `ih = iw = 64`, `kh = kw = 5`: at the iteration
`b = 93`, `h = 12`, `w = 25`, `c_idx = kh_idx = kw_idx = 0` the 32-bit destination index is
negative, and the run does not return a buffer. -/
theorem im2col_traced_overflow {α : Type} [Zero α] (input col : List α) :
    im2col_traced input col 256 256 64 64 5 5 = none := by
  have e60 : wrap32 (wrap32 ((64 : ℤ) - 5) + 1) = ((60 : ℕ) : ℤ) := by decide
  unfold im2col_traced
  simp only [e60, Option.bind_eq_bind]
  refine Option.bind_eq_none.2 (fun c _ => ?_)
  refine forLoop_none 256 93 (by decide) _ (fun s => ?_) _
  refine forLoop_none 60 12 (by decide) _ (fun s => ?_) _
  refine forLoop_none 60 25 (by decide) _ (fun s => ?_) _
  refine forLoop_none 256 0 (by decide) _ (fun s => ?_) _
  refine forLoop_none 5 0 (by decide) _ (fun s => ?_) _
  refine forLoop_none 5 0 (by decide) _ (fun s => ?_) _
  refine Option.bind_eq_none.2 (fun x _ => ?_)
  have hneg : wrap32 (wrap32 (wrap32 (wrap32 (wrap32 (wrap32 (((93 : ℕ) : ℤ) * ((60 : ℕ) : ℤ)) +
      ((12 : ℕ) : ℤ)) * ((60 : ℕ) : ℤ)) + ((25 : ℕ) : ℤ)) * wrap32 (wrap32 (256 * 5) * 5)) +
      wrap32 (wrap32 (wrap32 (wrap32 (((0 : ℕ) : ℤ) * 5) + ((0 : ℕ) : ℤ)) * 5) +
        ((0 : ℕ) : ℤ))) < 0 := by decide
  rw [writeAt_neg _ _ _ hneg]
  rfl

/-! ## What the traced runs log -/

/-- Two nested loops over a flattened index visit the indices `0, 1, ..., A*B - 1` in order. -/
theorem flatMap_range_mul {α : Type} (g : ℕ → List α) (A B : ℕ) :
    ((List.range A).flatMap fun a => (List.range B).flatMap fun b => g (a * B + b)) =
      (List.range (A * B)).flatMap g := by
  induction A with
  | zero => simp
  | succ A ih =>
    rw [List.range_succ, List.flatMap_append, ih, Nat.succ_mul, List.range_add,
      List.flatMap_append, List.flatMap_map]
    simp

theorem flatMap_range_mul3 {α : Type} (g : ℕ → List α) (A B D : ℕ) :
    ((List.range A).flatMap fun a => (List.range B).flatMap fun b =>
      (List.range D).flatMap fun d => g ((a * B + b) * D + d)) =
      (List.range (A * B * D)).flatMap g :=
  (flatMap_range_mul (fun x => (List.range D).flatMap fun d => g (x * D + d)) A B).trans
    (flatMap_range_mul g (A * B) D)

theorem flatMap_singleton_eq_map {α β : Type} (f : α → β) (l : List α) :
    (l.flatMap fun a => [f a]) = l.map f := by
  induction l with
  | nil => rfl
  | cons a l ih => rw [List.flatMap_cons, ih]; rfl

/-- The destinations in the log of `im2col_traced` are `0, 1, ..., L - 1`, in this order. -/
theorem im2colLog_destinations (N C H W KH KW OH OW : ℕ) :
    (im2colLog N C H W KH KW OH OW).map Prod.snd =
      (List.range (N * OH * OW * (C * KH * KW))).map fun j : ℕ => (j : ℤ) := by
  have inner : ∀ r : ℕ,
      ((List.range C).flatMap fun c => (List.range KH).flatMap fun kh =>
        (List.range KW).flatMap fun kw =>
          [((r * (C * KH * KW) + ((c * KH + kh) * KW + kw) : ℕ) : ℤ)]) =
        (List.range (C * KH * KW)).flatMap fun p => [((r * (C * KH * KW) + p : ℕ) : ℤ)] :=
    fun r => flatMap_range_mul3 (fun p => [((r * (C * KH * KW) + p : ℕ) : ℤ)]) C KH KW
  have outer := flatMap_range_mul3
    (fun r => (List.range (C * KH * KW)).flatMap fun p => [((r * (C * KH * KW) + p : ℕ) : ℤ)])
    N OH OW
  have flat := flatMap_range_mul (fun j => [((j : ℕ) : ℤ)]) (N * OH * OW) (C * KH * KW)
  simp only [im2colLog, List.map_flatMap, List.map_cons, List.map_nil, inner]
  rw [outer, flat]
  exact flatMap_singleton_eq_map _ _

theorem mul_bound {a b A B : ℤ} (ha0 : 0 ≤ a) (ha : a ≤ A) (hb0 : 0 ≤ b) (hb : b ≤ B) :
    0 ≤ a * b ∧ a * b ≤ A * B :=
  ⟨mul_nonneg ha0 hb0, mul_le_mul ha hb hb0 (le_trans ha0 ha)⟩

/-- On every shape `main` can draw, the buffer sizes of `direct_convolve` and of the steps of
`convolve_im2col_gemm` after `im2col`, which bound every index these compute, are below
`2^31`. -/
theorem drawable_sizes_fit (batchsize ic ih iw kc kh kw : Int)
    (h : drawable batchsize ic ih iw kc kh kw) :
    batchsize * ic * ih * iw < 2 ^ 31 ∧ kc * ic * kh * kw < 2 ^ 31 ∧
      batchsize * kc * (ih - kh + 1) * (iw - kw + 1) < 2 ^ 31 ∧
      batchsize * (ih - kh + 1) * (iw - kw + 1) * kc < 2 ^ 31 ∧
      ic * kh * kw < 2 ^ 31 := by
  obtain ⟨hb, hc, ⟨hih, hih'⟩, ⟨hiw, hiw'⟩, ⟨hkc, hkc'⟩, ⟨hkh, hkh'⟩, ⟨hkw, hkw'⟩⟩ := h
  have hb' : 0 ≤ batchsize ∧ batchsize ≤ 256 := by
    simp only [common_sizes, List.mem_cons, List.mem_singleton, List.mem_nil_iff,
      or_false] at hb
    omega
  have hc' : 0 ≤ ic ∧ ic ≤ 256 := by
    simp only [common_sizes, List.mem_cons, List.mem_singleton, List.mem_nil_iff,
      or_false] at hc
    omega
  have hoh : 0 ≤ ih - kh + 1 ∧ ih - kh + 1 ≤ 63 := by omega
  have how : 0 ≤ iw - kw + 1 ∧ iw - kw + 1 ≤ 63 := by omega
  have a1 := mul_bound hb'.1 hb'.2 hc'.1 hc'.2
  have a2 := mul_bound a1.1 a1.2 (by omega : (0 : ℤ) ≤ ih) hih'
  have a3 := mul_bound a2.1 a2.2 (by omega : (0 : ℤ) ≤ iw) hiw'
  have b1 := mul_bound (by omega : (0 : ℤ) ≤ kc) hkc' hc'.1 hc'.2
  have b2 := mul_bound b1.1 b1.2 (by omega : (0 : ℤ) ≤ kh) hkh'
  have b3 := mul_bound b2.1 b2.2 (by omega : (0 : ℤ) ≤ kw) hkw'
  have c1 := mul_bound hb'.1 hb'.2 (by omega : (0 : ℤ) ≤ kc) hkc'
  have c2 := mul_bound c1.1 c1.2 hoh.1 hoh.2
  have c3 := mul_bound c2.1 c2.2 how.1 how.2
  have d1 := mul_bound hb'.1 hb'.2 hoh.1 hoh.2
  have d2 := mul_bound d1.1 d1.2 how.1 how.2
  have d3 := mul_bound d2.1 d2.2 (by omega : (0 : ℤ) ≤ kc) hkc'
  have e1 := mul_bound hc'.1 hc'.2 (by omega : (0 : ℤ) ≤ kh) hkh'
  have e2 := mul_bound e1.1 e1.2 (by omega : (0 : ℤ) ≤ kw) hkw'
  exact ⟨lt_of_le_of_lt a3.2 (by norm_num), lt_of_le_of_lt b3.2 (by norm_num),
    lt_of_le_of_lt c3.2 (by norm_num), lt_of_le_of_lt d3.2 (by norm_num),
    lt_of_le_of_lt e2.2 (by norm_num)⟩

end Conv

namespace Conv

/-! ## Claims on the convolution layer -/

theorem are_equal_self (x : ℚ) : Cmp.are_equal x x (1 / 10000) = true := by
  simp only [Cmp.are_equal, sub_self, abs_zero, max_self, decide_eq_true_eq]
  positivity

theorem list4_eq {l : List ℚ} {a b c d : ℚ} (hl : l.length = 4) (h0 : l[0]? = some a)
    (h1 : l[1]? = some b) (h2 : l[2]? = some c) (h3 : l[3]? = some d) : l = [a, b, c, d] := by
  match l, hl with
  | [x0, x1, x2, x3], _ =>
    simp only [List.getElem?_cons_zero, List.getElem?_cons_succ, Option.some.injEq] at h0 h1 h2 h3
    rw [h0, h1, h2, h3]

/-- On every shape that fits 32-bit `int`, over exact arithmetic and with the reference matrix
multiply, `direct_convolve` and `convolve_im2col_gemm` both return, and their output buffers
are equal, of length `N*K*OH*OW`. -/
theorem gemm_eq_direct_of_fits (input kernel out1 out2 : List ℚ)
    (N C H W K KH KW : ℕ)
    (hKH1 : 1 ≤ KH) (hKH : KH ≤ H) (hKW1 : 1 ≤ KW) (hKW : KW ≤ W)
    (hin : input.length = N * C * H * W) (hker : kernel.length = K * C * KH * KW)
    (hf : im2col_fits N C H W KH KW) :
    ∃ d g, direct_convolve input kernel out1 N C H W K KH KW = some d ∧
      convolve_im2col_gemm input kernel out2 N C H W K KH KW = some g ∧
      d.length = N * K * (H - KH + 1) * (W - KW + 1) ∧
      g.length = N * K * (H - KH + 1) * (W - KW + 1) ∧
      d = g ∧
      ∀ i, i < N * K * (H - KH + 1) * (W - KW + 1) →
        ∃ x y, d[i]? = some x ∧ g[i]? = some y ∧ x = y ∧
          Cmp.are_equal x y (1 / 10000) = true := by
  obtain ⟨d, hd, hdlen, hdget⟩ :=
    direct_convolve_get input kernel out1 N C H W K KH KW hKH hKW hin hker
  obtain ⟨g, hg, hglen, hgget⟩ :=
    convolve_im2col_gemm_get input kernel out2 N C H W K KH KW hKH1 hKH hKW1 hKW hin hker hf
  have hdg : d = g := by
    apply List.ext_getElem?
    intro i
    by_cases hi : i < N * K * (H - KH + 1) * (W - KW + 1)
    · obtain ⟨b, hb, k, hk, y, hy, x, hx, rfl⟩ := nchw_surj hi
      rw [hdget b k y x hb hk hy hx, hgget b k y x hb hk hy hx]
    · rw [List.getElem?_eq_none (by omega), List.getElem?_eq_none (by omega)]
  refine ⟨d, g, hd, hg, hdlen, hglen, hdg, fun i hi => ?_⟩
  obtain ⟨b, hb, k, hk, y, hy, x, hx, rfl⟩ := nchw_surj hi
  exact ⟨_, _, hdget b k y x hb hk hy hx, hgget b k y x hb hk hy hx, rfl, are_equal_self _⟩

/-- C1: the equivalence fails on the shape `batchsize = ic = 256`, `ih = iw = 64`, `kc = 8`,
`kh = kw = 5`, which `main` can draw and which satisfies `1 ≤ KH ≤ H`, `1 ≤ KW ≤ W`.  There
`convolve_im2col_gemm` returns no buffer, whatever the input and kernel buffers hold, because
the 32-bit index `col_row_idx * col_cols + col_col_idx` of `im2col` leaves the vector, while
`direct_convolve`, here on a zero input of length `N*C*H*W` and a zero kernel of length
`K*C*KH*KW`, returns a buffer of `N*K*OH*OW = 256*8*60*60` values. -/
theorem gemm_fails_where_direct_returns :
    drawable 256 256 64 64 8 5 5 ∧
      (∀ input kernel out2 : List ℚ,
        convolve_im2col_gemm input kernel out2 256 256 64 64 8 5 5 = none) ∧
      ∃ d, direct_convolve (List.replicate (256 * 256 * 64 * 64) (0 : ℚ))
          (List.replicate (8 * 256 * 5 * 5) 0) [] 256 256 64 64 8 5 5 = some d ∧
        d.length = 256 * 8 * 60 * 60 := by
  refine ⟨?_, fun input kernel out2 => ?_, ?_⟩
  · unfold drawable common_sizes
    decide
  · unfold convolve_im2col_gemm im2col
    rw [im2col_traced_overflow]
    rfl
  · obtain ⟨d, hd, hdlen, _⟩ := direct_convolve_get
      (List.replicate (256 * 256 * 64 * 64) (0 : ℚ)) (List.replicate (8 * 256 * 5 * 5) 0) []
      256 256 64 64 8 5 5 (by decide) (by decide) (List.length_replicate _ _)
      (List.length_replicate _ _)
    exact ⟨d, hd, hdlen⟩

/-- C3: for `N=1, C=1, H=3, W=3, K=1, KH=2, KW=2`, input `[1,...,9]` and kernel `[1,0,0,1]`,
`direct_convolve` returns exactly `[6,8,12,14]`, and `convolve_im2col_gemm` (with the reference
matrix multiply) returns the same four values in the same order, whatever the output vectors
hold on entry. -/
theorem concrete_scenario_3x3 (out1 out2 : List ℚ) :
    direct_convolve [1, 2, 3, 4, 5, 6, 7, 8, 9] [1, 0, 0, 1] out1 1 1 3 3 1 2 2 =
        some [6, 8, 12, 14] ∧
      convolve_im2col_gemm [1, 2, 3, 4, 5, 6, 7, 8, 9] [1, 0, 0, 1] out2 1 1 3 3 1 2 2 =
        some [6, 8, 12, 14] := by
  have hv : ∀ h w, h < 2 → w < 2 →
      convSum [1, 2, 3, 4, 5, 6, 7, 8, 9] [1, 0, 0, 1] 1 3 3 2 2 0 0 h w =
        [6, 8, 12, 14].getD (h * 2 + w) 0 := by
    intro h w hh hw
    interval_cases h <;> interval_cases w <;> simp [convSum, Finset.sum_range_succ] <;> norm_num
  constructor
  · obtain ⟨d, hd, hdlen, hdget⟩ := direct_convolve_get [1, 2, 3, 4, 5, 6, 7, 8, 9] [1, 0, 0, 1]
      out1 1 1 3 3 1 2 2 (by decide) (by decide) (by decide) (by decide)
    have h00 := hdget 0 0 0 0 (by decide) (by decide) (by decide) (by decide)
    have h01 := hdget 0 0 0 1 (by decide) (by decide) (by decide) (by decide)
    have h10 := hdget 0 0 1 0 (by decide) (by decide) (by decide) (by decide)
    have h11 := hdget 0 0 1 1 (by decide) (by decide) (by decide) (by decide)
    rw [hv _ _ (by decide) (by decide)] at h00 h01 h10 h11
    refine Eq.trans hd ?_
    rw [list4_eq hdlen h00 h01 h10 h11]
    rfl
  · obtain ⟨g, hg, hglen, hgget⟩ := convolve_im2col_gemm_get [1, 2, 3, 4, 5, 6, 7, 8, 9]
      [1, 0, 0, 1] out2 1 1 3 3 1 2 2 (by decide) (by decide) (by decide) (by decide)
      (by decide) (by decide) (by decide)
    have h00 := hgget 0 0 0 0 (by decide) (by decide) (by decide) (by decide)
    have h01 := hgget 0 0 0 1 (by decide) (by decide) (by decide) (by decide)
    have h10 := hgget 0 0 1 0 (by decide) (by decide) (by decide) (by decide)
    have h11 := hgget 0 0 1 1 (by decide) (by decide) (by decide) (by decide)
    rw [hv _ _ (by decide) (by decide)] at h00 h01 h10 h11
    refine Eq.trans hg ?_
    rw [list4_eq hglen h00 h01 h10 h11]
    rfl

/-- C4: the claim fails on the valid shape `batchsize = ic = 256`, `ih = iw = 64`,
`kh = kw = 5`, which `main` can draw.  The claimed length `(N*OH*OW)*(C*KH*KW)` is
`5898240000`; the 32-bit product `col_rows * col_cols` that `im2col` passes to `resize` is
`1603272704`, and in the iteration `b = 93`, `h = 12`, `w = 25`, `c_idx = kh_idx = kw_idx = 0`
the 32-bit index `col_row_idx * col_cols + col_col_idx` is negative, so the assignment leaves
the vector: `im2col` returns no buffer, whatever `input` and `col` hold. -/
theorem im2col_fails_on_large_shape {α : Type} [Zero α] (input col : List α) :
    im2col input col 256 256 64 64 5 5 = none ∧
      im2col_size 256 256 64 64 5 5 = 5898240000 ∧
      im2col_size32 256 256 64 64 5 5 = 1603272704 ∧
      im2col_dst32 256 5 5 60 60 93 12 25 0 0 0 = -2147479296 := by
  refine ⟨?_, by decide, by decide, by decide⟩
  unfold im2col
  rw [im2col_traced_overflow]
  rfl

/-- C5: the NHWC to NCHW step of `convolve_im2col_gemm` is a permutation.  For every `N`, `K`,
`OH`, `OW` and source buffer of length `N*K*OH*OW` it returns a destination buffer of the same
length with `dest[((b*K + k)*OH + h)*OW + w] = src[((b*OH + h)*OW + w)*K + k]` for every position
`(b,k,h,w)` of the index box; every flat index below `N*K*OH*OW` is the source index of exactly
one position of the box, and the destination index of exactly one position of the box. -/
theorem nhwc_to_nchw_permutation (src output : List ℚ) (N K OH OW : ℕ)
    (hsrc : src.length = N * K * OH * OW) :
    ∃ dest, nhwc_to_nchw src output N K OH OW = some dest ∧
      dest.length = N * K * OH * OW ∧
      (∀ b k h w, b < N → k < K → h < OH → w < OW →
        ((b * OH + h) * OW + w) * K + k < N * K * OH * OW ∧
        ((b * K + k) * OH + h) * OW + w < N * K * OH * OW ∧
        ∃ x, src[((b * OH + h) * OW + w) * K + k]? = some x ∧
          dest[((b * K + k) * OH + h) * OW + w]? = some x) ∧
      (∀ i, i < N * K * OH * OW →
        ∃! q : ℕ × ℕ × ℕ × ℕ, q.1 < N ∧ q.2.1 < K ∧ q.2.2.1 < OH ∧ q.2.2.2 < OW ∧
          ((q.1 * OH + q.2.2.1) * OW + q.2.2.2) * K + q.2.1 = i) ∧
      (∀ j, j < N * K * OH * OW →
        ∃! q : ℕ × ℕ × ℕ × ℕ, q.1 < N ∧ q.2.1 < K ∧ q.2.2.1 < OH ∧ q.2.2.2 < OW ∧
          ((q.1 * K + q.2.1) * OH + q.2.2.1) * OW + q.2.2.2 = j) := by
  obtain ⟨dest, hdest, hlen, hget⟩ := nhwc_to_nchw_get src output N K OH OW hsrc
  have hs : ∀ b k h w, b < N → k < K → h < OH → w < OW →
      ((b * OH + h) * OW + w) * K + k < N * K * OH * OW := by
    intro b k h w hb hk hh hw
    rw [show N * K * OH * OW = N * OH * OW * K by ring]
    exact flat_lt (flat_lt (flat_lt hb hh) hw) hk
  refine ⟨dest, hdest, hlen, ?_, ?_, ?_⟩
  · intro b k h w hb hk hh hw
    exact ⟨hs b k h w hb hk hh hw, flat_lt (flat_lt (flat_lt hb hk) hh) hw, _,
      getElem?_of_getD (by rw [hsrc]; exact hs b k h w hb hk hh hw), hget b k h w hb hk hh hw⟩
  · intro i hi
    obtain ⟨b, hb, k, hk, y, hy, x, hx, rfl⟩ := nhwc_surj hi
    refine ⟨(b, k, y, x), ⟨hb, hk, hy, hx, rfl⟩, ?_⟩
    rintro ⟨b', k', y', x'⟩ ⟨_, hk', hy', hx', e⟩
    obtain ⟨rfl, rfl, rfl, rfl⟩ := nhwc_inj hk' hy' hx' hk hy hx e
    rfl
  · intro j hj
    obtain ⟨b, hb, k, hk, y, hy, x, hx, rfl⟩ := nchw_surj hj
    refine ⟨(b, k, y, x), ⟨hb, hk, hy, hx, rfl⟩, ?_⟩
    rintro ⟨b', k', y', x'⟩ ⟨_, hk', hy', hx', e⟩
    obtain ⟨rfl, rfl, rfl, rfl⟩ := nchw_inj hk' hy' hx' hk hy hx e
    rfl

/-- Witness of `nhwc_to_nchw_permutation`: one batch, two channels, a 1x2 image; the source
element at NHWC index 2 (`w = 1`, `k = 0`) lands at NCHW index 1. -/
theorem nhwc_to_nchw_permutation_witness :
    ∃ dest, nhwc_to_nchw [1, 2, 3, 4] [] 1 2 1 2 = some dest ∧ dest.length = 4 ∧
      dest[1]? = some 3 := by
  obtain ⟨dest, h1, h2, h3, _, _⟩ := nhwc_to_nchw_permutation [1, 2, 3, 4] [] 1 2 1 2
    (by decide)
  obtain ⟨_, _, x, hx, hout⟩ := h3 0 0 0 1 (by decide) (by decide) (by decide) (by decide)
  have hx3 : x = 3 := by simpa using hx.symm
  exact ⟨dest, h1, h2, hx3 ▸ hout⟩

end Conv

namespace Conv

/-! ## Further claims on the convolution layer -/

/-- C13: for every shape with `1 ≤ KH ≤ H` and `1 ≤ KW ≤ W` (so also when `KH = H` or `KW = W`),
an input buffer of length `N*C*H*W` and a kernel buffer of length `K*C*KH*KW`, every index that
`direct_convolve`, `im2col` and the NHWC to NCHW loop of `convolve_im2col_gemm` read or write
lies within the buffer it addresses, the indices taken as unbounded integers
(`im2col_unbounded`, `convolve_im2col_gemm_unbounded`): the three functions and the layout
step, which return nothing as soon as an access leaves its vector, all return a result, and
each index formula is below the length of its buffer. -/
theorem indices_in_bounds (input kernel out1 col0 out2 : List ℚ) (N C H W K KH KW : ℕ)
    (_hKH1 : 1 ≤ KH) (hKH : KH ≤ H) (_hKW1 : 1 ≤ KW) (hKW : KW ≤ W)
    (hin : input.length = N * C * H * W) (hker : kernel.length = K * C * KH * KW) :
    (∃ d, direct_convolve input kernel out1 N C H W K KH KW = some d ∧
      d.length = N * K * (H - KH + 1) * (W - KW + 1)) ∧
    (∃ col, im2col_unbounded input col0 N C H W KH KW = some col ∧
      col.length = (N * (H - KH + 1) * (W - KW + 1)) * (C * KH * KW)) ∧
    (∃ g, convolve_im2col_gemm_unbounded input kernel out2 N C H W K KH KW = some g ∧
      g.length = N * K * (H - KH + 1) * (W - KW + 1)) ∧
    (∀ src : List ℚ, src.length = N * K * (H - KH + 1) * (W - KW + 1) →
      ∃ dest, nhwc_to_nchw src out2 N K ((H - KH + 1 : ℕ) : ℤ) ((W - KW + 1 : ℕ) : ℤ) =
        some dest) ∧
    ∀ b k h w c kh kw, b < N → k < K → h < H - KH + 1 → w < W - KW + 1 → c < C → kh < KH →
      kw < KW →
        ((b * C + c) * H + (h + kh)) * W + (w + kw) < input.length ∧
        k * (C * KH * KW) + ((c * KH + kh) * KW + kw) < kernel.length ∧
        ((b * K + k) * (H - KH + 1) + h) * (W - KW + 1) + w <
          N * K * (H - KH + 1) * (W - KW + 1) ∧
        ((b * (H - KH + 1) + h) * (W - KW + 1) + w) * (C * KH * KW) +
            ((c * KH + kh) * KW + kw) <
          (N * (H - KH + 1) * (W - KW + 1)) * (C * KH * KW) ∧
        ((b * (H - KH + 1) + h) * (W - KW + 1) + w) * K + k <
          (N * (H - KH + 1) * (W - KW + 1)) * K := by
  obtain ⟨d, hd, hdlen, _⟩ :=
    direct_convolve_get input kernel out1 N C H W K KH KW hKH hKW hin hker
  obtain ⟨col, hcol, hcollen, _⟩ :=
    im2col_unbounded_get input col0 N C H W KH KW hKH hKW hin
  obtain ⟨g, hg, hglen, _⟩ :=
    convolve_im2col_gemm_unbounded_get input kernel out2 N C H W K KH KW hKH hKW hin hker
  refine ⟨⟨d, hd, hdlen⟩, ⟨col, hcol, hcollen⟩, ⟨g, hg, hglen⟩, ?_, ?_⟩
  · intro src hsrc
    obtain ⟨dest, hdest, _, _⟩ :=
      nhwc_to_nchw_get src out2 N K (H - KH + 1) (W - KW + 1) hsrc
    exact ⟨dest, hdest⟩
  · intro b k h w c kh kw hb hk hh hw hc hkh hkw
    refine ⟨?_, ?_, ?_, ?_, ?_⟩
    · rw [hin]
      exact flat_lt (flat_lt (flat_lt hb hc) (by omega)) (by omega)
    · rw [hker, show K * C * KH * KW = K * (C * KH * KW) by ring]
      exact flat_lt hk (flat_lt (flat_lt hc hkh) hkw)
    · exact flat_lt (flat_lt (flat_lt hb hk) hh) hw
    · exact flat_lt (flat_lt (flat_lt hb hh) hw) (flat_lt (flat_lt hc hkh) hkw)
    · exact flat_lt (flat_lt (flat_lt hb hh) hw) hk

/-- Witness of `indices_in_bounds`: the degenerate shape `KH = H = 2`, `KW = W = 2`, where the
output is a single cell. -/
theorem indices_in_bounds_witness :
    ∃ d, direct_convolve ([1, 2, 3, 4] : List ℚ) [1, 0, 0, 1] [] 1 1 2 2 1 2 2 = some d ∧
      d.length = 1 := by
  obtain ⟨⟨d, hd, hdlen⟩, _⟩ := indices_in_bounds [1, 2, 3, 4] [1, 0, 0, 1] [] [] []
    1 1 2 2 1 2 2 (by decide) (by decide) (by decide) (by decide) (by decide) (by decide)
  exact ⟨d, hd, hdlen⟩

/-- C16: for `ih, iw ≥ 1` and `kh, kw ≥ 1`, the clamping step of `main` replaces `kh` by
`min(kh, ih)` and `kw` by `min(kw, iw)`; after it `1 ≤ kh ≤ ih` and `1 ≤ kw ≤ iw` hold and the
derived output dimensions satisfy `oh = ih - kh + 1 ≥ 1` and `ow = iw - kw + 1 ≥ 1`; the two
benchmark programs apply the same clamping. -/
theorem clamped_shape_valid (ih iw kh kw : Int)
    (hih : 1 ≤ ih) (hiw : 1 ≤ iw) (hkh : 1 ≤ kh) (hkw : 1 ≤ kw) :
    (main_im2col_shape ih iw kh kw).1 = min kh ih ∧
    (main_im2col_shape ih iw kh kw).2.1 = min kw iw ∧
    (main_im2col_shape ih iw kh kw).2.2.1 = ih - (main_im2col_shape ih iw kh kw).1 + 1 ∧
    (main_im2col_shape ih iw kh kw).2.2.2 = iw - (main_im2col_shape ih iw kh kw).2.1 + 1 ∧
    (1 ≤ (main_im2col_shape ih iw kh kw).1 ∧ (main_im2col_shape ih iw kh kw).1 ≤ ih) ∧
    (1 ≤ (main_im2col_shape ih iw kh kw).2.1 ∧ (main_im2col_shape ih iw kh kw).2.1 ≤ iw) ∧
    1 ≤ (main_im2col_shape ih iw kh kw).2.2.1 ∧
    1 ≤ (main_im2col_shape ih iw kh kw).2.2.2 ∧
    main_direct_shape ih iw kh kw = main_im2col_shape ih iw kh kw := by
  simp only [main_im2col_shape, main_direct_shape]
  refine ⟨?_, ?_, trivial, trivial, ⟨?_, ?_⟩, ⟨?_, ?_⟩, ?_, ?_, trivial⟩ <;>
    split_ifs <;> omega

/-- Witness of `clamped_shape_valid`: a 5x5 kernel drawn for a 3x4 input is clamped to 3x4 and
the output is a single cell. -/
theorem clamped_shape_valid_witness :
    (main_im2col_shape 3 4 5 5).1 = min 5 3 ∧ (main_im2col_shape 3 4 5 5).2.1 = min 5 4 ∧
      1 ≤ (main_im2col_shape 3 4 5 5).2.2.1 ∧ 1 ≤ (main_im2col_shape 3 4 5 5).2.2.2 ∧
      main_direct_shape 3 4 5 5 = main_im2col_shape 3 4 5 5 := by
  obtain ⟨h1, h2, _, _, _, _, h7, h8, h9⟩ :=
    clamped_shape_valid 3 4 5 5 (by decide) (by decide) (by decide) (by decide)
  exact ⟨h1, h2, h7, h8, h9⟩

/-- C19: for the drawable shape `batchsize = ic = 256`, `ih = iw = 64`, `kh = kw = 5` the buffer
size `col_rows * col_cols` of `im2col` is `5898240000`, which is not below `2^31`: the 32-bit
computation does not equal the unbounded value. -/
theorem im2col_size_overflows :
    drawable 256 256 64 64 8 5 5 ∧
      main_im2col_shape 64 64 5 5 = (5, 5, 60, 60) ∧
      im2col_size 256 256 64 64 5 5 = 5898240000 ∧
      (2 : Int) ^ 31 ≤ im2col_size 256 256 64 64 5 5 ∧
      im2col_size32 256 256 64 64 5 5 = 1603272704 ∧
      im2col_size32 256 256 64 64 5 5 ≠ im2col_size 256 256 64 64 5 5 := by
  refine ⟨?_, by decide, by decide, by decide, by decide, by decide⟩
  unfold drawable common_sizes
  decide

/-- On a shape that fits 32-bit `int`, the six nested loops of `im2col` assign the cells
`0, 1, ..., L - 1` of the patch buffer in this order, each exactly once. -/
theorem im2col_traced_destinations {α : Type} [Zero α] (input col : List α)
    (N C H W KH KW : ℕ)
    (hKH1 : 1 ≤ KH) (hKH : KH ≤ H) (hKW1 : 1 ≤ KW) (hKW : KW ≤ W)
    (hin : input.length = N * C * H * W) (hf : im2col_fits N C H W KH KW) :
    ∃ out log, im2col_traced input col N C H W KH KW = some (out, log) ∧
      log.map Prod.snd =
        (List.range (N * (H - KH + 1) * (W - KW + 1) * (C * KH * KW))).map
          fun j : ℕ => (j : ℤ) :=
  ⟨_, _, im2col_traced_eq input col N C H W KH KW hKH1 hKH hKW1 hKW hin hf,
    im2colLog_destinations _ _ _ _ _ _ _ _⟩

/-- C14: the claim fails on the valid shape `batchsize = ic = 256`, `ih = iw = 64`,
`kh = kw = 5`, which `main` can draw.  In 32-bit `int` the map from the loop position to the
index `col_row_idx * col_cols + col_col_idx` is not a bijection onto `[0, L)`: at the loop
position `(93, 12, 25, 0, 0, 0)` the index is negative, and the loop positions
`(186, 24, 48, 163, 4, 1)` and `(0, 0, 0, 0, 0, 0)`, which have different `(b, h, w)`, get the
same index `0`.  The run of the loop nest leaves the vector and returns no buffer, whatever
`input` and `col` hold. -/
theorem im2col_destinations_collide {α : Type} [Zero α] (input col : List α) :
    im2col_traced input col 256 256 64 64 5 5 = none ∧
      im2col_dst32 256 5 5 60 60 93 12 25 0 0 0 < 0 ∧
      im2col_dst32 256 5 5 60 60 186 24 48 163 4 1 = 0 ∧
      im2col_dst32 256 5 5 60 60 0 0 0 0 0 0 = 0 :=
  ⟨im2col_traced_overflow input col, by decide, by decide, by decide⟩

/-- The loop of `print_matrix` before its last iteration: every value printed so far is
followed by a space. -/
theorem print_loop (fmt : ℚ → List Char) (matrix : List ℚ) (k : ℕ)
    (hk : k + 1 ≤ matrix.length) :
    forLoop (k : ℤ) (fun i out => do
      let x ← readAt matrix i
      let out := out ++ fmt x
      if i < (matrix.length : Int) - 1 then pure (out ++ [' ']) else pure out) [] =
      some ((matrix.take k).map fun v => fmt v ++ [' ']).flatten := by
  induction k with
  | zero => simp [forLoop_zero]
  | succ k ih =>
    have hlt : k < matrix.length := by omega
    have hc : (k : ℤ) < (matrix.length : ℤ) - 1 := by omega
    rw [forLoop_succ, ih (by omega)]
    simp only [Option.some_bind, Option.bind_eq_bind, readAt_of_lt _ _ hlt, hc, if_true,
      Option.pure_def, List.take_succ, List.getElem?_eq_getElem hlt, Option.toList_some,
      List.map_append, List.map_cons, List.map_nil, List.flatten_append, List.flatten_cons,
      List.flatten_nil, List.append_nil, List.append_assoc]
    rw [List.getD_eq_getElem?_getD, List.getElem?_eq_getElem hlt]
    rfl

theorem intercalate_cons_cons (sep a b : List Char) (t : List (List Char)) :
    List.intercalate sep (a :: b :: t) = a ++ sep ++ List.intercalate sep (b :: t) := by
  simp [List.intercalate, List.intersperse]

/-- Values each followed by a space, then the last value alone, is the space-separated line. -/
theorem flatten_take_eq_intercalate (fmt : ℚ → List Char) (matrix : List ℚ) (k : ℕ)
    (hk : matrix.length = k + 1) :
    ((matrix.take k).map fun v => fmt v ++ [' ']).flatten ++ fmt (matrix.getD k 0) =
      List.intercalate [' '] (matrix.map fmt) := by
  induction matrix generalizing k with
  | nil => simp at hk
  | cons a rest ih =>
    cases k with
    | zero =>
      have hr : rest = [] := List.eq_nil_of_length_eq_zero (by simpa using hk)
      subst hr
      simp [List.intercalate, List.intersperse]
    | succ k =>
      have hrl : rest.length = k + 1 := by simpa using hk
      cases rest with
      | nil => simp at hrl
      | cons b t =>
        have h := ih k hrl
        rw [List.map_cons, List.map_cons, intercalate_cons_cons, ← List.map_cons, ← h]
        simp [List.take_succ_cons, List.getD_cons_succ]

/-- What `print_matrix` writes: the formatted values separated by single spaces, then a
newline. -/
theorem print_matrix_eq (fmt : ℚ → List Char) (matrix : List ℚ) (rows cols : Int) :
    print_matrix fmt matrix rows cols =
      some (List.intercalate [' '] (matrix.map fmt) ++ ['\n']) := by
  unfold print_matrix
  cases hm : matrix with
  | nil => simp [List.intercalate]
  | cons a rest =>
    rw [← hm]
    have hlen : matrix.length = rest.length + 1 := by rw [hm]; rfl
    have hne : matrix.isEmpty = false := by rw [hm]; rfl
    have hlt : rest.length < matrix.length := by omega
    have hc : ¬ ((rest.length : ℤ) < (matrix.length : ℤ) - 1) := by omega
    have hcast : (matrix.length : ℤ) = ((rest.length + 1 : ℕ) : ℤ) := by rw [hlen]
    have hloop := print_loop fmt matrix rest.length (by omega)
    simp only [Option.bind_eq_bind] at hloop
    simp only [hne, Bool.false_eq_true, if_false, Option.bind_eq_bind]
    rw [hcast, forLoop_succ, ← hcast, hloop]
    simp only [Option.some_bind, readAt_of_lt _ _ hlt, hc, if_false, Option.pure_def]
    rw [flatten_take_eq_intercalate fmt matrix rest.length hlen]

theorem mem_intercalate (sep : List Char) (ls : List (List Char)) (c : Char)
    (h : c ∈ List.intercalate sep ls) : c ∈ sep ∨ ∃ l ∈ ls, c ∈ l := by
  induction ls with
  | nil => simp [List.intercalate] at h
  | cons a rest ih =>
    cases rest with
    | nil =>
      have ha : c ∈ a := by simpa [List.intercalate, List.intersperse] using h
      exact Or.inr ⟨a, List.mem_cons_self _ _, ha⟩
    | cons b t =>
      rw [intercalate_cons_cons, List.mem_append, List.mem_append] at h
      rcases h with (h | h) | h
      · exact Or.inr ⟨a, List.mem_cons_self _ _, h⟩
      · exact Or.inl h
      · rcases ih h with h' | ⟨l, hl, hcl⟩
        · exact Or.inl h'
        · exact Or.inr ⟨l, List.mem_cons_of_mem _ hl, hcl⟩

/-- C18: with the per-value formatter treated as a function `fmt` producing a non-empty string
without whitespace, `print_matrix` on a buffer `[v0, ..., v(n-1)]` writes exactly
`fmt(v0) ++ " " ++ ... ++ " " ++ fmt(v(n-1)) ++ "\n"`: the line holds no newline, and for a
non-empty buffer splitting it at the spaces gives back exactly the `n` formatted values (single
separating spaces, no trailing space); on an empty buffer it writes exactly `"\n"`. -/
theorem print_matrix_format (fmt : ℚ → List Char) (matrix : List ℚ) (rows cols : Int)
    (hfmt : ∀ v, fmt v ≠ [] ∧ ∀ c ∈ fmt v, Cmp.isspace c = false) :
    print_matrix fmt matrix rows cols =
      some (List.intercalate [' '] (matrix.map fmt) ++ ['\n']) ∧
    '\n' ∉ List.intercalate [' '] (matrix.map fmt) ∧
    (matrix ≠ [] →
      (List.intercalate [' '] (matrix.map fmt)).splitOn ' ' = matrix.map fmt) ∧
    (matrix.map fmt).length = matrix.length ∧
    (∀ t ∈ matrix.map fmt, t ≠ []) ∧
    print_matrix fmt [] rows cols = some ['\n'] := by
  have hsp : ∀ l ∈ matrix.map fmt, ∀ c ∈ l, Cmp.isspace c = false := by
    intro l hl c hc
    obtain ⟨v, _, rfl⟩ := List.mem_map.1 hl
    exact (hfmt v).2 c hc
  refine ⟨print_matrix_eq fmt matrix rows cols, ?_, ?_, List.length_map _ _, ?_, ?_⟩
  · intro h
    rcases mem_intercalate _ _ _ h with h' | ⟨l, hl, hcl⟩
    · simp at h'
    · exact absurd (hsp l hl _ hcl) (by decide)
  · intro hne
    refine List.splitOn_intercalate _ ' ' (fun l hl hcl => ?_) (by simpa using hne)
    exact absurd (hsp l hl _ hcl) (by decide)
  · intro t ht
    obtain ⟨v, _, rfl⟩ := List.mem_map.1 ht
    exact (hfmt v).1
  · rw [print_matrix_eq]
    rfl

/-- Witness of `print_matrix_format`: three values, each formatted as `1.00000000`. -/
theorem print_matrix_format_witness :
    print_matrix (fun _ => "1.00000000".toList) [1, 1, 1] 1 3 =
      some "1.00000000 1.00000000 1.00000000\n".toList :=
  (print_matrix_format (fun _ => "1.00000000".toList) [1, 1, 1] 1 3
    (fun _ => ⟨show "1.00000000".toList ≠ [] by decide,
      show ∀ c ∈ "1.00000000".toList, Cmp.isspace c = false by decide⟩)).1.trans (by decide)

end Conv

namespace Cmp

/-! ## The comparator's loops terminate within their iteration bounds -/

theorem length_dropWhile_le (p : Char → Bool) (l : List Char) :
    (l.dropWhile p).length ≤ l.length :=
  (List.dropWhile_sublist p).length_le

theorem extractWord_lt (s s' : IStream) (w : List Char) (h : extractWord s = (some w, s')) :
    s'.buf.length < s.buf.length := by
  unfold extractWord at h
  split at h
  · simp at h
  · split at h
    · simp at h
    · next c cs hd =>
      simp only [Prod.mk.injEq, Option.some.injEq] at h
      obtain ⟨_, rfl⟩ := h
      have h2 : (c :: cs).length ≤ s.buf.length := by
        rw [← hd]; exact length_dropWhile_le _ _
      have hc : isspace c = false := by
        have := List.head_dropWhile_not isspace s.buf (by rw [hd]; simp)
        simpa [hd] using this
      have h3 : List.dropWhile (fun c => !isspace c) (c :: cs) =
          List.dropWhile (fun c => !isspace c) cs := by
        simp [List.dropWhile_cons, hc]
      have h4 : (List.dropWhile (fun c => !isspace c) cs).length ≤ cs.length :=
        length_dropWhile_le _ _
      simp only [h3]
      simp only [List.length_cons] at h2
      omega

theorem getline_lt (s s' : IStream) (l : List Char) (h : getline s = (some l, s')) :
    s'.buf.length < s.buf.length := by
  unfold getline at h
  split at h
  · simp at h
  · split at h
    · next c rest hd =>
      simp only [Prod.mk.injEq, Option.some.injEq] at h
      obtain ⟨_, rfl⟩ := h
      have h1 : (c :: rest).length ≤ s.buf.length := by
        rw [← hd]; exact length_dropWhile_le _ _
      simp only [List.length_cons] at h1
      simp only
      omega
    · simp only at h
      split at h
      · simp at h
      · next hne =>
        simp only [Prod.mk.injEq, Option.some.injEq] at h
        obtain ⟨_, rfl⟩ := h
        cases hb : s.buf with
        | nil => simp [hb] at hne
        | cons c cs => simp

/-- The inner loop returns within a bound larger than the length of the first line. -/
theorem compare_words_total (fuel line_num : ℕ) (ss1 ss2 : IStream)
    (h : ss1.buf.length < fuel) : (compare_words fuel line_num ss1 ss2).isSome = true := by
  induction fuel generalizing ss1 ss2 with
  | zero => exact absurd h (Nat.not_lt_zero _)
  | succ fuel ih =>
    rcases h1 : extractWord ss1 with ⟨_ | word1, ss1'⟩
    · simp [compare_words, h1]
    · rcases h2 : extractWord ss2 with ⟨_ | word2, ss2'⟩
      · simp [compare_words, h1, h2]
      · rcases h3 : compare_word_pair line_num word1 word2 with _ | v
        · have hlt := extractWord_lt ss1 ss1' word1 h1
          simpa [compare_words, h1, h2, h3] using ih ss1' ss2' (by omega)
        · simp [compare_words, h1, h2, h3]

/-- The outer loop returns within a bound larger than the length of the first file. -/
theorem compare_lines_total (fuel line_num : ℕ) (file1 file2 : IStream)
    (h : file1.buf.length < fuel) : (compare_lines fuel line_num file1 file2).isSome = true := by
  induction fuel generalizing line_num file1 file2 with
  | zero => exact absurd h (Nat.not_lt_zero _)
  | succ fuel ih =>
    rcases h1 : getline file1 with ⟨_ | line1, file1'⟩
    · by_cases he : file1'.eofbit = file2.eofbit <;> simp [compare_lines, h1, he]
    · rcases h2 : getline file2 with ⟨_ | line2, file2'⟩
      · by_cases he : file1'.eofbit = file2'.eofbit <;> simp [compare_lines, h1, h2, he]
      · have hw := compare_words_total (line1.length + 1) (line_num + 1)
          (mkStream line1) (mkStream line2) (Nat.lt_succ_self _)
        rcases hr : compare_words (line1.length + 1) (line_num + 1)
          (mkStream line1) (mkStream line2) with _ | v | ⟨ss1, ss2⟩
        · rw [hr] at hw; exact absurd hw (by simp)
        · simp [compare_lines, h1, h2, hr]
        · by_cases ha : (in_avail ss1 != 0 || in_avail ss2 != 0) = true
          · simp only [compare_lines, h1, h2, hr, ha, if_true, Option.isSome_some]
          · have hlt := getline_lt file1 file1' line1 h1
            simpa only [compare_lines, h1, h2, hr, ha, if_false] using
              ih (line_num + 1) file1' file2' (by omega)

/-- The comparator always ends with a verdict: the iteration bounds of the embedding are never
reached. -/
theorem compare_outputs_total (file1 file2 : List Char) :
    ∃ v, compare_outputs file1 file2 = some v :=
  Option.isSome_iff_exists.1 (compare_lines_total _ _ _ _ (Nat.lt_succ_self _))

end Cmp

namespace Cmp

/-! ## Claims on the comparator -/

/-- C6: the comparator is not symmetric.  A file holding one newline-terminated line compared
with the same line without the final newline succeeds, while the same two files in the other
order fail with a line count mismatch. -/
theorem compare_outputs_asymmetric :
    compare_outputs "1.00000000\n".toList "1.00000000".toList = some Verdict.success ∧
      compare_outputs "1.00000000".toList "1.00000000\n".toList =
        some Verdict.line_count_mismatch := by
  decide!

/-- C7: a newline-terminated line, as the serializer emits it, compared with an identical copy
of itself is rejected with a line count mismatch, exit code 1. -/
theorem compare_outputs_self_newline :
    compare_outputs "1.00000000 2.00000000\n".toList "1.00000000 2.00000000\n".toList =
        some Verdict.line_count_mismatch ∧
      exit_code Verdict.line_count_mismatch = some 1 := by
  decide!

/-- C8: a first file of two lines, the last one without a final newline, compared with a
second file holding only the first of them is accepted. -/
theorem compare_outputs_extra_line_accepted :
    compare_outputs "1.0\n2.0".toList "1.0\n".toList = some Verdict.success := by
  decide!

/-- C9: a line of two tokens compared with a line holding only the first of them is accepted:
no word count mismatch is reported; and two lines with the same single token, the second one
followed by a space, are rejected with a word count mismatch. -/
theorem compare_outputs_extra_word_accepted :
    compare_outputs "1 2".toList "1".toList = some Verdict.success ∧
      compare_outputs "1".toList "1 ".toList = some (Verdict.word_count_mismatch 1) := by
  decide!

/-- C10: over exact arithmetic, a pair of tokens that are both classified numeric and parse to
`a` and `b` passes if and only if `|a - b| ≤ 1e-4 * max(|a|, |b|)`; and the one-line streams
`"1.00000000 2.00000000"` and `"1.00000000 2.00010000"` compare as equal (success). -/
theorem numeric_pair_tolerance :
    (∀ (line_num : ℕ) (word1 word2 : List Char) (a b : ℚ),
      is_number word1 = true → is_number word2 = true →
      stod word1 = some a → stod word2 = some b →
        (compare_word_pair line_num word1 word2 = none ↔
          |a - b| ≤ 1 / 10000 * max |a| |b|)) ∧
      compare_outputs "1.00000000 2.00000000".toList "1.00000000 2.00010000".toList =
        some Verdict.success := by
  refine ⟨?_, by decide!⟩
  intro line_num word1 word2 a b h1 h2 ha hb
  simp [compare_word_pair, h1, h2, ha, hb, are_equal]

/-- Witness of `numeric_pair_tolerance`: the tokens `2.00000000` and `2.00010000` are numeric,
parse to `2` and `20001/10000`, and pass. -/
theorem numeric_pair_tolerance_witness :
    is_number "2.00000000".toList = true ∧ is_number "2.00010000".toList = true ∧
      stod "2.00000000".toList = some 2 ∧ stod "2.00010000".toList = some (20001 / 10000) ∧
      compare_word_pair 1 "2.00000000".toList "2.00010000".toList = none :=
  ⟨by decide, by decide, by decide!, by decide!,
    (numeric_pair_tolerance.1 1 "2.00000000".toList "2.00010000".toList 2 (20001 / 10000)
      (by decide) (by decide) (by decide!) (by decide!)).2 (by norm_num [abs_of_nonneg])⟩

end Cmp

namespace Cmp

/-! ## Further claims on the comparator -/

/-- C11: two streams that differ in one numeric token only, by less than the tolerance, are
rejected when their lines are newline-terminated (line count mismatch); when the difference
exceeds the tolerance the mismatch is reported with the line of the token. -/
theorem compare_outputs_within_tolerance_rejected :
    compare_outputs "1.00000000 2.00000000\n".toList "1.00000000 2.00000001\n".toList =
        some Verdict.line_count_mismatch ∧
      compare_outputs "1.0\n2.0\n".toList "1.0\n2.1\n".toList =
        some (Verdict.mismatch 2 "2.0".toList "2.1".toList) := by
  decide!

/-- C12: a pair of tokens of which at least one is not classified numeric passes if and only if
the two tokens are identical strings, and otherwise stops the run with a mismatch report for
the current line; in particular the line `batchsize=2` compared with the line `batchsize=3`
fails with a mismatch at line 1, with or without a final newline. -/
theorem non_numeric_pair_exact :
    (∀ (line_num : ℕ) (word1 word2 : List Char),
      (is_number word1 = false ∨ is_number word2 = false) →
        (compare_word_pair line_num word1 word2 = none ↔ word1 = word2) ∧
        (word1 ≠ word2 →
          compare_word_pair line_num word1 word2 =
            some (Verdict.mismatch line_num word1 word2))) ∧
      compare_outputs "batchsize=2".toList "batchsize=3".toList =
        some (Verdict.mismatch 1 "batchsize=2".toList "batchsize=3".toList) ∧
      compare_outputs "batchsize=2\n".toList "batchsize=3\n".toList =
        some (Verdict.mismatch 1 "batchsize=2".toList "batchsize=3".toList) := by
  refine ⟨?_, by decide, by decide⟩
  intro line_num word1 word2 h
  have hn : (is_number word1 && is_number word2) = false := by
    rcases h with h | h <;> simp [h]
  constructor
  · simp [compare_word_pair, hn]
  · intro hne
    simp [compare_word_pair, hn, hne]

/-- Witness of `non_numeric_pair_exact`: `batchsize=2` is not numeric, passes against itself and
fails against `batchsize=3`. -/
theorem non_numeric_pair_exact_witness :
    is_number "batchsize=2".toList = false ∧
      compare_word_pair 1 "batchsize=2".toList "batchsize=2".toList = none ∧
      compare_word_pair 1 "batchsize=2".toList "batchsize=3".toList =
        some (Verdict.mismatch 1 "batchsize=2".toList "batchsize=3".toList) :=
  ⟨by decide,
    ((non_numeric_pair_exact.1 1 "batchsize=2".toList "batchsize=2".toList
      (Or.inl (by decide))).1).2 rfl,
    (non_numeric_pair_exact.1 1 "batchsize=2".toList "batchsize=3".toList
      (Or.inl (by decide))).2 (by decide)⟩

/-- C17: a token is classified numeric by `is_number` if and only if it is non-empty and every
one of its characters is a decimal digit (`'0'` to `'9'`), `'.'`, `'+'` or `'-'`. -/
theorem is_number_iff (s : List Char) :
    is_number s = true ↔
      s ≠ [] ∧ ∀ c ∈ s, ('0' ≤ c ∧ c ≤ '9') ∨ c = '.' ∨ c = '+' ∨ c = '-' := by
  have hd : ∀ c : Char, c.isDigit = true ↔ ('0' ≤ c ∧ c ≤ '9') := by
    intro c
    simp only [Char.isDigit, Bool.and_eq_true, decide_eq_true_eq]
    rfl
  unfold is_number
  simp only [Bool.and_eq_true, Bool.not_eq_true', List.isEmpty_eq_false_iff_exists_mem,
    List.isEmpty_iff, List.dropWhile_eq_nil_iff, Bool.or_eq_true, beq_iff_eq, hd]
  constructor
  · rintro ⟨⟨x, hx⟩, h⟩
    refine ⟨List.ne_nil_of_mem hx, fun c hc => ?_⟩
    rcases h c hc with ((h1 | h1) | h1) | h1
    · exact Or.inl h1
    · exact Or.inr (Or.inl h1)
    · exact Or.inr (Or.inr (Or.inl h1))
    · exact Or.inr (Or.inr (Or.inr h1))
  · rintro ⟨hne, h⟩
    refine ⟨List.exists_mem_of_ne_nil s hne, fun c hc => ?_⟩
    rcases h c hc with h1 | h1 | h1 | h1
    · exact Or.inl (Or.inl (Or.inl h1))
    · exact Or.inl (Or.inl (Or.inr h1))
    · exact Or.inl (Or.inr h1)
    · exact Or.inr h1

/-- C20: the token `-` is classified numeric by `is_number` but has no parseable numeric
prefix, so `std::stod` throws; comparing a file holding this token with an identical copy ends
with the uncaught exception instead of a pass or fail verdict (no exit code). -/
theorem numeric_token_conversion_aborts :
    is_number "-".toList = true ∧ stod "-".toList = none ∧
      compare_word_pair 1 "-".toList "-".toList = some Verdict.uncaught_exception ∧
      compare_outputs "-".toList "-".toList = some Verdict.uncaught_exception ∧
      exit_code Verdict.uncaught_exception = none := by
  decide

end Cmp
